import Mathlib

/-!
Verification development for the sonarvision prompt-generation tool's
semantic mapper & merge engine.  All definitions are shallow embeddings of
the frontend script's functions (`normalizeList`, `mergeList`, `getByPath`,
`setByPath`, `deriveProjectUpdates`, `normalizeDetails`,
`applyRawFormValues`, `applyGeneralMapping`, `applyHeuristicMapping`,
`prefillFromProject`, and the keyword extraction in
`extractAndPrePopulateNextPhase`).  JavaScript runtime values that these
functions touch (the nested `details` trees) are modelled by `JVal`
(strings and string-keyed objects); a thrown TypeError is modelled by
`Option.none` in the functions that can throw.
-/

namespace SV

/-- JavaScript values stored in a `details` tree: strings and plain
string-keyed objects (association lists, first binding wins on lookup,
as JS object keys are unique in practice). -/
inductive JVal where
  | str : String → JVal
  | obj : List (String × JVal) → JVal
  deriving Repr

/-- Decidable equality for `JVal` (manual, because of the nested list). -/
def JVal.beq : JVal → JVal → Bool
  | .str a, .str b => a = b
  | .obj a, .obj b => beqList a b
  | _, _ => false
where beqList : List (String × JVal) → List (String × JVal) → Bool
  | [], [] => true
  | (k, v) :: xs, (k', v') :: ys => k = k' && JVal.beq v v' && beqList xs ys
  | _, _ => false

mutual

theorem JVal.beq_iff : ∀ a b : JVal, JVal.beq a b = true ↔ a = b
  | .str _, .str _ => by simp [JVal.beq]
  | .str _, .obj _ => by simp [JVal.beq]
  | .obj _, .str _ => by simp [JVal.beq]
  | .obj l, .obj m => by
    simp only [JVal.beq, JVal.obj.injEq]
    exact JVal.beqList_iff l m

theorem JVal.beqList_iff :
    ∀ l m : List (String × JVal), JVal.beq.beqList l m = true ↔ l = m
  | [], [] => by simp [JVal.beq.beqList]
  | [], _ :: _ => by simp [JVal.beq.beqList]
  | _ :: _, [] => by simp [JVal.beq.beqList]
  | (k, v) :: xs, (k', v') :: ys => by
    simp only [JVal.beq.beqList, Bool.and_eq_true, decide_eq_true_eq,
      List.cons.injEq, Prod.mk.injEq]
    rw [JVal.beq_iff v v', JVal.beqList_iff xs ys, and_assoc]

end

instance : DecidableEq JVal := fun a b =>
  decidable_of_iff (JVal.beq a b = true) (JVal.beq_iff a b)

/-- JS truthiness of a modelled value: the empty string is falsy; every
other string and every object (including `{}`) is truthy. -/
def truthy : JVal → Bool
  | .str s => s ≠ ""
  | .obj _ => true

/-- JS `a || b` on modelled values. -/
def jsOr2 (a b : JVal) : JVal := if truthy a then a else b

/-- JS `x || ""` where `x` may be `undefined` (modelled as `none`). -/
def jsOr (a : Option JVal) : JVal :=
  match a with
  | some v => if truthy v then v else .str ""
  | none => .str ""

/-- JS `x || {}` where `x` may be `undefined`. -/
def jsOrObj (a : Option JVal) : JVal :=
  match a with
  | some v => if truthy v then v else .obj []
  | none => .obj []

/-- JS string coercion of a modelled value (`String(v)` / `v.toString()`):
a plain object stringifies to "[object Object]". -/
def jsStringOf : JVal → String
  | .str s => s
  | .obj _ => "[object Object]"

/-- First-binding lookup in a modelled object, i.e. `o[k]` (with `none`
for `undefined`). -/
def lookupKey (o : List (String × JVal)) (k : String) : Option JVal :=
  match o with
  | [] => none
  | (k', v) :: rest => if k' = k then some v else lookupKey rest k

/-- Replace the first binding of `k` (or append a new one), i.e. the
effect of the assignment `o[k] = v` on a JS object. -/
def setKey (o : List (String × JVal)) (k : String) (v : JVal) :
    List (String × JVal) :=
  match o with
  | [] => [(k, v)]
  | (k', v') :: rest =>
    if k' = k then (k', v) :: rest else (k', v') :: setKey rest k v

/-- `Object.entries(v)`: bindings of an object; for a string, the JS
index/character pairs. -/
def jsEntries : JVal → List (String × JVal)
  | .obj o => o
  | .str s => (s.data.enum.map fun c => (toString c.1, JVal.str ⟨[c.2]⟩))

/-! ### Character and string helpers (JS `trim`, `toLowerCase`, `split`,
`includes`, `join`), modelled over `List Char` for full control. -/

/-- Whitespace characters removed by JS `String.prototype.trim` (the ASCII
ones relevant to this code base). -/
def wsChar (c : Char) : Bool := c = ' ' || c = '\t' || c = '\n' || c = '\r'

/-- Drop leading whitespace. -/
def trimL (l : List Char) : List Char := l.dropWhile wsChar

/-- Drop trailing whitespace. -/
def trimR (l : List Char) : List Char := (trimL l.reverse).reverse

/-- Characters of `s.trim()`. -/
def trimChars (l : List Char) : List Char := trimR (trimL l)

/-- JS `s.trim()`. -/
def jsTrim (s : String) : String := ⟨trimChars s.data⟩

/-- JS `s.toLowerCase()` (ASCII case folding, which is all this code base
relies on). -/
def lc (s : String) : String := ⟨s.data.map Char.toLower⟩

/-- Split a character list at every character satisfying `p`; pieces may
be empty, matching JS `String.prototype.split` with a character class. -/
def splitOnP (p : Char → Bool) : List Char → List (List Char)
  | [] => [[]]
  | c :: cs =>
    match splitOnP p cs with
    | [] => [[]]
    | piece :: rest => if p c then [] :: piece :: rest else (c :: piece) :: rest

/-- Delimiters of `normalizeList`'s split regex `[,\n;]+`. -/
def isDelim (c : Char) : Bool := c = ',' || c = '\n' || c = ';'

/-- `needle.isPrefix(hay)` on character lists (own definition, no `BEq`). -/
def isPrefixCh : List Char → List Char → Bool
  | [], _ => true
  | _ :: _, [] => false
  | a :: as, b :: bs => a = b && isPrefixCh as bs

/-- JS `hay.includes(needle)` on character lists. -/
def containsSub (needle hay : List Char) : Bool :=
  match hay with
  | [] => isPrefixCh needle []
  | _ :: rest => isPrefixCh needle hay || containsSub needle rest

/-- JS `Array.prototype.join(sep)`. -/
def joinWith (sep : String) : List String → String
  | [] => ""
  | [x] => x
  | x :: xs => x ++ sep ++ joinWith sep xs

/-- Segment-list prefix test (own definition). -/
def isSegPre : List String → List String → Bool
  | [], _ => true
  | _ :: _, [] => false
  | a :: as, b :: bs => a = b && isSegPre as bs

/-! ### `normalizeList` and `mergeList` (source lines 5278–5297) -/

/-- Source `normalizeList`: split on `[,\n;]+`, trim each piece and drop
empties.  (Splitting at every single delimiter instead of at delimiter
runs only changes the empty pieces, which the filter removes.) -/
def normalizeList (val : String) : List String :=
  ((splitOnP isDelim val.data).map fun l => (⟨trimChars l⟩ : String)).filter
    (fun s => s ≠ "")

/-- Boolean list membership for strings (the `Set.has` of `mergeList`'s
lower-cased seen-set, modelled as a list). -/
def member (x : String) : List String → Bool
  | [] => false
  | y :: ys => y = x || member x ys

/-- One iteration of `mergeList`'s `incoming.forEach`: state is the
accumulating base array and the lower-cased seen-set. -/
def mergeStep (st : List String × List String) (val : String) :
    List String × List String :=
  if val = "" then st
  else
    let trimmed := jsTrim val
    if trimmed ≠ "" ∧ ¬ member (lc trimmed) st.2 then
      (st.1 ++ [trimmed], st.2 ++ [lc trimmed])
    else st

/-- Source `mergeList`: start from the normalized existing list, keep a
lower-cased seen-set, and append each non-empty trimmed incoming item
whose lower-cased form is new. -/
def mergeList (existing : String) (incoming : List String) : String :=
  let base := normalizeList existing
  let state := incoming.foldl mergeStep (base, base.map lc)
  joinWith ", " state.1

/-! ### Path helpers `getByPath` / `setByPath` (source lines 5299–5315) -/

/-- Path segments of a dotted path (`path.split(".")`). -/
def segs (path : String) : List String :=
  (splitOnP (fun c => c = '.') path.data).map fun l => (⟨l⟩ : String)

/-- One step of `getByPath`'s reduce:
`acc && acc[key] !== undefined ? acc[key] : undefined`. -/
def getStep (acc : Option JVal) (k : String) : Option JVal :=
  match acc with
  | none => none
  | some v =>
    if truthy v then
      match v with
      | .obj o => lookupKey o k
      | .str _ => none
    else none

/-- `getByPath` on pre-split segments. -/
def getSegs (v : JVal) (p : List String) : Option JVal :=
  p.foldl getStep (some v)

/-- Source `getByPath`: guard on falsy object / empty path, then reduce
over the dot-split segments. -/
def getByPath (obj : JVal) (path : String) : Option JVal :=
  if path = "" ∨ ¬ truthy obj then none else getSegs obj (segs path)

/-- Normalisation `cursor[key] = cursor[key] || {}` applied to the child
before `setByPath` descends into it. -/
def normChild (c : Option JVal) : JVal :=
  match c with
  | some v => if truthy v then v else .obj []
  | none => .obj []

/-- `setByPath` on pre-split segments.  `none` models the TypeError the
source throws when the cursor walks through a non-empty string with at
least two segments left (property reads on `undefined`); a non-empty
string with exactly one segment left silently swallows the assignment,
as JS property writes on primitives do in sloppy mode. -/
def setSegs (t : JVal) (p : List String) (v : JVal) : Option JVal :=
  match p with
  | [] => some t
  | [k] =>
    match t with
    | .obj o => some (.obj (setKey o k v))
    | .str s => some (.str s)
  | k :: k' :: rest =>
    match t with
    | .str _ => none
    | .obj o =>
      (setSegs (normChild (lookupKey o k)) (k' :: rest) v).map
        fun r => .obj (setKey o k r)

/-- Source `setByPath` (returning the updated tree; the source mutates
`target` in place). -/
def setByPath (target : JVal) (path : String) (v : JVal) : Option JVal :=
  if ¬ truthy target ∨ path = "" then some target
  else setSegs target (segs path) v

/-! ### `deriveProjectUpdates` (source lines 5318–5381) -/

/-- The two persisted entity kinds. -/
inductive EntityKind where
  | project
  | feature
  deriving DecidableEq, Repr

/-- One entry of the effective semantic map (static table overlaid with
rendered-form hints); `isList` is false where the source leaves the flag
undefined. -/
structure FieldMeta where
  entity : EntityKind
  path : String
  label : String
  isList : Bool
  deriving DecidableEq, Repr

/-- A proposed update shown to the user.  `oldValue` keeps the raw
`currentVal || ""` the source stores (a `JVal`, since a malformed tree
can put an object there); `newValue` is always a string. -/
structure Suggestion where
  entity : EntityKind
  path : String
  label : String
  oldValue : JVal
  newValue : String
  deriving DecidableEq, Repr

/-- Accumulator of `deriveProjectUpdates`: the two update payloads (each
starting as `{ general: {} }`) and the suggestion list. -/
structure DeriveState where
  projectUpdates : JVal
  featureUpdates : JVal
  suggestions : List Suggestion
  deriving DecidableEq, Repr

/-- The `{ general: {} }` initial payload. -/
def emptyGeneral : JVal := .obj [("general", .obj [])]

/-- `map.label || fieldKey`. -/
def labelOr (label fieldKey : String) : String :=
  if label = "" then fieldKey else label

/-- `project?.details || {}` / `feature?.details || {}` where the
argument is the record's `details` (absent record collapsed to `none`). -/
def detailsOrEmpty (d : Option JVal) : JVal := jsOrObj d

/-- Raw form values: field id to submitted value; `some none` models a
`null` binding and a missing key models `undefined`. -/
def lookupFV (fv : List (String × Option String)) (k : String) :
    Option (Option String) :=
  match fv with
  | [] => none
  | (k', v) :: rest => if k' = k then some v else lookupFV rest k

/-- The details argument of `deriveProjectUpdates` feeding one entity. -/
def sideOf (project feature : Option JVal) : EntityKind → Option JVal
  | .project => project
  | .feature => feature

/-- Per-field body of `deriveProjectUpdates`'s `forEach`.  `none` models
a thrown TypeError (`normalizeList` applied to an object current value,
or `setByPath` walking through a string). -/
def processField (project feature : Option JVal)
    (fv : List (String × Option String)) (st : DeriveState)
    (e : String × FieldMeta) : Option DeriveState :=
  let fieldKey := e.1
  let meta := e.2
  match lookupFV fv fieldKey with
  | none => some st
  | some none => some st
  | some (some value) =>
    let trimmed := jsTrim value
    if trimmed = "" then some st
    else
      let entityDetails := detailsOrEmpty (sideOf project feature meta.entity)
      let currentVal := getByPath entityDetails meta.path
      if meta.isList then
        let incomingItems := normalizeList trimmed
        if incomingItems = [] then some st
        else
          match jsOr currentVal with
          | .obj _ => none
          | .str cs =>
            let currentList := normalizeList cs
            let newItems := incomingItems.filter
              (fun v => ¬ currentList.any (fun ex => lc ex = lc v))
            if newItems = [] then some st
            else
              let merged := mergeList cs newItems
              let sugg : Suggestion :=
                ⟨meta.entity, meta.path, labelOr meta.label fieldKey,
                  .str cs, merged⟩
              match meta.entity with
              | .feature =>
                (setByPath st.featureUpdates meta.path (.str merged)).map
                  fun u => ⟨st.projectUpdates, u, st.suggestions ++ [sugg]⟩
              | .project =>
                (setByPath st.projectUpdates meta.path (.str merged)).map
                  fun u => ⟨u, st.featureUpdates, st.suggestions ++ [sugg]⟩
      else
        let currentString := jsTrim (jsStringOf (jsOr currentVal))
        if currentString = "" ∨ currentString ≠ trimmed then
          let sugg : Suggestion :=
            ⟨meta.entity, meta.path, labelOr meta.label fieldKey,
              jsOr currentVal, trimmed⟩
          match meta.entity with
          | .feature =>
            (setByPath st.featureUpdates meta.path (.str trimmed)).map
              fun u => ⟨st.projectUpdates, u, st.suggestions ++ [sugg]⟩
          | .project =>
            (setByPath st.projectUpdates meta.path (.str trimmed)).map
              fun u => ⟨u, st.featureUpdates, st.suggestions ++ [sugg]⟩
        else some st

/-- The `forEach` loop of `deriveProjectUpdates` as explicit recursion. -/
def deriveGo (project feature : Option JVal)
    (fv : List (String × Option String)) (st : DeriveState) :
    List (String × FieldMeta) → Option DeriveState
  | [] => some st
  | e :: rest =>
    match processField project feature fv st e with
    | none => none
    | some st' => deriveGo project feature fv st' rest

/-- Source `deriveProjectUpdates`.  `project` / `feature` are the two
records' `details` values (collapsing an absent record and absent
details, exactly the uses `project?.details`); `map` is the effective
semantic map `buildSemanticMap(formId)` as an association list in object
key order; the result is `none` when the source would throw. -/
def deriveProjectUpdates (project feature : Option JVal)
    (map : List (String × FieldMeta))
    (fv : List (String × Option String)) : Option DeriveState :=
  deriveGo project feature fv ⟨emptyGeneral, emptyGeneral, []⟩ map

/-- The static `FIELD_SEMANTIC_MAP.discovery` table of the source. -/
def discoveryMap : List (String × FieldMeta) :=
  [("teamMembers", ⟨.project, "general.teamMembers", "Team members", true⟩),
   ("featureSize", ⟨.feature, "general.tShirtSize", "Feature size", false⟩),
   ("featureDescription",
     ⟨.feature, "general.description", "Feature description", false⟩),
   ("stakeholders", ⟨.project, "general.stakeholders", "Stakeholders", true⟩),
   ("business-objectives",
     ⟨.project, "general.goals", "Business objectives", false⟩),
   ("current-pain-points", ⟨.project, "general.issues", "Pain points", false⟩),
   ("success-metrics", ⟨.project, "general.goals", "Success metrics", false⟩)]

/-! ### Derived definitions used by the statements and proofs -/

/-- The appended-items part of `mergeList`'s fold, peeled off the running
base list: keep each non-empty trimmed item whose lower-cased form is not
in `seen`, threading the seen-set. -/
def keepNew (seen : List String) : List String → List String
  | [] => []
  | v :: vs =>
    if v = "" then keepNew seen vs
    else
      let t := jsTrim v
      if t ≠ "" ∧ ¬ member (lc t) seen then t :: keepNew (seen ++ [lc t]) vs
      else keepNew seen vs

/-- C2's claim, taken at its word: append exactly those incoming items
whose case-insensitive form is absent from the current list, in encounter
order (no deduplication within the incoming list itself). -/
def claimMergeC2 (existing : String) (incoming : List String) : String :=
  joinWith ", "
    (normalizeList existing ++
      incoming.filter
        (fun v => ¬ (normalizeList existing).any (fun ex => lc ex = lc v)))

/-- Effective-writability of a dotted path in a tree: `setByPath` neither
throws nor silently swallows the assignment, because every strict prefix
of the path lands on an object, on `""` or on nothing (never on a
non-empty string, and never on a string root). -/
def ew : JVal → List String → Bool
  | _, [] => false
  | .str _, _ :: _ => false
  | .obj _, [_] => true
  | .obj o, k :: k' :: rest => ew (normChild (lookupKey o k)) (k' :: rest)

/-- The update payload a `DeriveState` holds for one entity. -/
def updatesFor (st : DeriveState) : EntityKind → JVal
  | .project => st.projectUpdates
  | .feature => st.featureUpdates

/-- The state-free part of `processField`: what the field contributes —
`none` for a thrown TypeError, `some none` for a skip, `some (some s)`
for an emitted suggestion (the state only receives the corresponding
`setByPath` write). -/
def fieldDecision (project feature : Option JVal)
    (fv : List (String × Option String)) (e : String × FieldMeta) :
    Option (Option Suggestion) :=
  let fieldKey := e.1
  let meta := e.2
  match lookupFV fv fieldKey with
  | none => some none
  | some none => some none
  | some (some value) =>
    let trimmed := jsTrim value
    if trimmed = "" then some none
    else
      let entityDetails := detailsOrEmpty (sideOf project feature meta.entity)
      let currentVal := getByPath entityDetails meta.path
      if meta.isList then
        let incomingItems := normalizeList trimmed
        if incomingItems = [] then some none
        else
          match jsOr currentVal with
          | .obj _ => none
          | .str cs =>
            let currentList := normalizeList cs
            let newItems := incomingItems.filter
              (fun v => ¬ currentList.any (fun ex => lc ex = lc v))
            if newItems = [] then some none
            else
              some (some ⟨meta.entity, meta.path, labelOr meta.label fieldKey,
                .str cs, mergeList cs newItems⟩)
      else
        let currentString := jsTrim (jsStringOf (jsOr currentVal))
        if currentString = "" ∨ currentString ≠ trimmed then
          some (some ⟨meta.entity, meta.path, labelOr meta.label fieldKey,
            jsOr currentVal, trimmed⟩)
        else some none

/-- Apply a list of (dotted path, string value) writes to a details tree
with `setByPath`, propagating a thrown TypeError.  This is how the saved
update payload lands in the stored `details` on confirmation. -/
def persistGo (d : JVal) : List (String × String) → Option JVal
  | [] => some d
  | (p, v) :: rest =>
    match setByPath d p (.str v) with
    | none => none
    | some d' => persistGo d' rest

/-- The (path, newValue) writes a suggestion list carries for one
entity. -/
def suggPairs (ent : EntityKind) (suggs : List Suggestion) :
    List (String × String) :=
  (suggs.filter fun s => decide (s.entity = ent)).map fun s =>
    (s.path, s.newValue)

/-- A submitted field is active when its value is present, non-null and
has a non-empty trim. -/
def activeFV (fv : List (String × Option String)) (k : String) : Bool :=
  match lookupFV fv k with
  | some (some v) => jsTrim v ≠ ""
  | _ => false

/-- No object is stored at a path (the TypeError guard for list fields:
`normalizeList` throws on an object current value). -/
def okStored : Option JVal → Bool
  | some (.obj _) => false
  | _ => true

/-- Source `normalizeDetails` (lines 84–95): absent or falsy details give
`{}`; a (non-empty) string is JSON-parsed with `{}` as the fallback on a
parse error; an object is returned unchanged.  `parse` abstracts the
platform's `JSON.parse`, with `none` for a thrown parse error. -/
def normalizeDetails (parse : String → Option JVal) (details : Option JVal) :
    JVal :=
  match details with
  | none => .obj []
  | some v =>
    if ¬ truthy v then .obj []
    else
      match v with
      | .str s =>
        match parse s with
        | some parsed => parsed
        | none => .obj []
      | .obj o => .obj o

/-! ### Form model and the reverse-mapping (prefill) path

The rendered form is modelled as a list of fields; `querySelector` by id
(or by name) becomes a first-index search, and setting `el.value` becomes
an index update.  The participant-table widget re-serialises its hidden
input through the DOM and is outside this value model; fields here are
the standard input/textarea/select elements. -/

structure FormField where
  id : String
  name : String
  tag : String
  ftype : String
  label : String
  value : String
  options : List (String × String)
  deriving DecidableEq, Repr

/-- First index satisfying a predicate. -/
def findIdxBy (p : FormField → Bool) : List FormField → Option Nat
  | [] => none
  | fd :: rest =>
    if p fd then some 0 else (findIdxBy p rest).map (· + 1)

/-- `formFields.querySelector("#id")`. -/
def idxById (form : List FormField) (id : String) : Option Nat :=
  findIdxBy (fun fd => decide (fd.id = id)) form

/-- `querySelector("#id") || querySelector("[name=id]")`. -/
def idxByIdOrName (form : List FormField) (id : String) : Option Nat :=
  match idxById form id with
  | some i => some i
  | none => findIdxBy (fun fd => decide (fd.name = id)) form

/-- `el.value = v` at a position. -/
def updAt (i : Nat) (v : String) : List FormField → List FormField
  | [] => []
  | fd :: rest =>
    match i with
    | 0 => { fd with value := v } :: rest
    | i + 1 => fd :: updAt i v rest

/-- `o[k]` on a modelled value (`undefined` on strings; index properties
of JS strings are not needed by this code base). -/
def getKeyJ (v : JVal) (k : String) : Option JVal :=
  match v with
  | .obj o => lookupKey o k
  | .str _ => none

/-- Truthiness of a possibly-`undefined` value. -/
def truthyO (a : Option JVal) : Bool :=
  match a with
  | some v => truthy v
  | none => false

/-- JS `a || b` where both sides may be `undefined`. -/
def jsOrO (a b : Option JVal) : Option JVal :=
  match a with
  | some v => if truthy v then some v else b
  | none => b

/-- Source `applyRawFormValues` (lines 5726–5735): write every saved
value onto the field with the matching id, unconditionally. -/
def applyRawFormValues (values : List (String × JVal))
    (form : List FormField) : List FormField :=
  values.foldl
    (fun fm kv =>
      match idxById fm kv.1 with
      | some i => updAt i (jsStringOf kv.2) fm
      | none => fm)
    form

/-- Source `setIfEmpty` inside `prefillFromProject`: write `val` onto the
field found by id or name only when the field is empty or blank. -/
def setIfEmpty (form : List FormField) (id : String) (val : Option JVal) :
    List FormField × Bool :=
  if ¬ truthyO val then (form, false)
  else
    match idxByIdOrName form id with
    | none => (form, false)
    | some i =>
      match form.get? i with
      | none => (form, false)
      | some fd =>
        if fd.value = "" ∨ jsTrim fd.value = "" then
          match val with
          | some v => (updAt i (jsStringOf v) form, true)
          | none => (form, false)
        else (form, false)

/-- Chain of `applied = setIfEmpty(id, val) || applied` statements. -/
def setIfEmptyAll (form : List FormField) (applied : Bool) :
    List (String × Option JVal) → List FormField × Bool
  | [] => (form, applied)
  | (id, val) :: rest =>
    let r := setIfEmpty form id val
    setIfEmptyAll r.1 (r.2 || applied) rest

/-- The discovery-phase safety-net writes of `prefillFromProject`. -/
def discoveryPrefill (projectGeneral featureGeneral : JVal) :
    List (String × Option JVal) :=
  [("teamMembers", getKeyJ projectGeneral "teamMembers"),
   ("stakeholders", getKeyJ projectGeneral "stakeholders"),
   ("featureDescription",
     jsOrO (getKeyJ featureGeneral "description")
       (jsOrO (getKeyJ featureGeneral "overview")
         (getKeyJ projectGeneral "overview"))),
   ("featureSize",
     jsOrO (getKeyJ featureGeneral "tShirtSize")
       (jsOrO (getKeyJ featureGeneral "size")
         (jsOrO (getKeyJ projectGeneral "tShirtSize")
           (getKeyJ projectGeneral "size")))),
   ("business-objectives", getKeyJ projectGeneral "goals")]

/-- The stories-phase safety-net writes. -/
def storiesPrefill (projectGeneral featureGeneral : JVal) :
    List (String × Option JVal) :=
  [("epicName",
     jsOrO (getKeyJ featureGeneral "name") (getKeyJ projectGeneral "name")),
   ("storyDetails",
     jsOrO (getKeyJ featureGeneral "description")
       (jsOrO (getKeyJ featureGeneral "overview")
         (getKeyJ projectGeneral "overview"))),
   ("userRoles", getKeyJ projectGeneral "roles"),
   ("acceptanceCriteria", getKeyJ projectGeneral "acStyle")]

/-- The requirements-phase safety-net writes. -/
def requirementsPrefill (projectGeneral featureGeneral : JVal) :
    List (String × Option JVal) :=
  [("projectName", getKeyJ projectGeneral "name"),
   ("businessGoals", getKeyJ projectGeneral "goals"),
   ("userTypes", getKeyJ projectGeneral "roles"),
   ("constraints", getKeyJ projectGeneral "issues"),
   ("acceptanceCriteria", getKeyJ projectGeneral "acStyle"),
   ("meetingObjectives", getKeyJ projectGeneral "goals"),
   ("meetingAttendees", getKeyJ projectGeneral "teamMembers")]

/-- The source-ordered candidate loop of `getVal`: first source whose
value at `meta.path` (or under the bare field key) is truthy wins; a
list-valued hit is re-normalised and re-joined.  `none` is the TypeError
`normalizeList` throws on an object; `some none` means every source fell
through. -/
def getValLoop (meta : FieldMeta) (fieldKey : String) :
    List JVal → Option (Option JVal)
  | [] => some none
  | src :: rest =>
    let direct := getByPath src meta.path
    if truthyO direct then
      match direct with
      | some (.obj _) =>
        if meta.isList then none else some (some (.obj []))
      | some (.str s) =>
        if meta.isList then
          some (some (.str (joinWith ", " (normalizeList s))))
        else some (some (.str s))
      | none => getValLoop meta fieldKey rest
    else
      match getKeyJ src fieldKey with
      | some v =>
        if truthy v then
          match v with
          | .obj _ => if meta.isList then none else some (some v)
          | .str s =>
            if meta.isList then
              some (some (.str (joinWith ", " (normalizeList s))))
            else some (some (.str s))
        else getValLoop meta fieldKey rest
      | none => getValLoop meta fieldKey rest

/-- Source `getVal` inside `prefillFromProject`: walk the ordered
sources, then the description fallback, else `""`. -/
def getVal (sources : List JVal) (featureGeneral projectGeneral : JVal)
    (meta : FieldMeta) (fieldKey : String) : Option JVal :=
  match getValLoop meta fieldKey sources with
  | none => none
  | some (some v) => some v
  | some none =>
    if ¬ meta.isList ∧ containsSub "description".data meta.path.data then
      some (jsOr
        (jsOrO (getKeyJ featureGeneral "overview")
          (jsOrO (getKeyJ projectGeneral "overview")
            (jsOrO (getKeyJ featureGeneral "description")
              (getKeyJ projectGeneral "description")))))
    else some (.str "")

/-- The semantic-map pass of `prefillFromProject`: fill each mapped field
that is still empty or blank with its first available value. -/
def mapPass (sources : List JVal) (featureGeneral projectGeneral : JVal)
    (form : List FormField) (applied : Bool) :
    List (String × FieldMeta) → Option (List FormField × Bool)
  | [] => some (form, applied)
  | (fieldKey, meta) :: rest =>
    match idxByIdOrName form fieldKey with
    | none => mapPass sources featureGeneral projectGeneral form applied rest
    | some i =>
      match form.get? i with
      | none => mapPass sources featureGeneral projectGeneral form applied rest
      | some fd =>
        if fd.value ≠ "" ∧ jsTrim fd.value ≠ "" then
          mapPass sources featureGeneral projectGeneral form applied rest
        else
          match getVal sources featureGeneral projectGeneral meta fieldKey with
          | none => none
          | some v =>
            if truthy v then
              mapPass sources featureGeneral projectGeneral
                (updAt i (jsStringOf v) form) true rest
            else
              mapPass sources featureGeneral projectGeneral form applied rest

/-- The `mapTargets` table of `applyGeneralMapping` (lines 5230–5259). -/
def gmTargets (general : JVal) : List (List String × Option JVal) :=
  [(["project-name", "projectName"], getKeyJ general "name"),
   (["project-description", "featureDescription", "businessGoals",
     "business-objectives", "functional-requirements", "current-pain-points"],
     jsOrO (getKeyJ general "overview") (getKeyJ general "description")),
   (["featureDescription"],
     jsOrO (getKeyJ general "description") (getKeyJ general "overview")),
   (["stakeholders", "key-stakeholders"], getKeyJ general "stakeholders"),
   (["goals", "primary-goals", "acceptanceCriteria", "success-metrics",
     "non-functional-requirements"], getKeyJ general "goals")]

/-- Write one target's value to each listed id whose field is blank. -/
def gmApplyIds (value : JVal) (form : List FormField) (applied : Bool) :
    List String → List FormField × Bool
  | [] => (form, applied)
  | id :: rest =>
    match idxById form id with
    | none => gmApplyIds value form applied rest
    | some i =>
      match form.get? i with
      | none => gmApplyIds value form applied rest
      | some fd =>
        if fd.value = "" ∨ jsTrim fd.value = "" then
          gmApplyIds value (updAt i (jsStringOf value) form) true rest
        else gmApplyIds value form applied rest

/-- Source `applyGeneralMapping` (lines 5230–5276). -/
def applyGeneralMapping (general : JVal) (form : List FormField) :
    List FormField × Bool :=
  if ¬ truthy general then (form, false)
  else
    (gmTargets general).foldl
      (fun st tgt =>
        match tgt.2 with
        | none => st
        | some v =>
          if truthy v then gmApplyIds v st.1 st.2 tgt.1 else st)
      (form, false)

/-- Input types `applyHeuristicMapping` refuses to fill. -/
def disallowedType (t : String) : Bool :=
  t = "date" || t = "time" || t = "datetime-local" || t = "number"

/-- The label-keyword candidate pushes of `applyHeuristicMapping`, in
source order. -/
def heurCandidates (data : JVal) (lbl : String) : List (Option JVal) :=
  (if containsSub "name".data lbl.data || containsSub "title".data lbl.data
   then [getKeyJ data "name"] else []) ++
  (if containsSub "feature".data lbl.data
   then [jsOrO (getKeyJ data "featureDescription")
          (jsOrO (getKeyJ data "description") (getKeyJ data "overview"))]
   else []) ++
  (if containsSub "description".data lbl.data ||
      containsSub "overview".data lbl.data
   then [jsOrO (getKeyJ data "description") (getKeyJ data "overview")]
   else []) ++
  (if containsSub "stakeholder".data lbl.data
   then [getKeyJ data "stakeholders"] else []) ++
  (if containsSub "goal".data lbl.data ||
      containsSub "objective".data lbl.data ||
      containsSub "success".data lbl.data
   then [getKeyJ data "goals"] else []) ++
  (if containsSub "requirement".data lbl.data
   then [jsOrO (getKeyJ data "requirements") (getKeyJ data "overview")]
   else []) ++
  (if containsSub "pain".data lbl.data || containsSub "issue".data lbl.data
   then [jsOrO (getKeyJ data "issues") (getKeyJ data "overview")] else []) ++
  (if containsSub "role".data lbl.data || containsSub "team".data lbl.data
   then [jsOrO (getKeyJ data "roles") (getKeyJ data "teamMembers")]
   else []) ++
  (if containsSub "acceptance".data lbl.data ||
      containsSub "criteria".data lbl.data ||
      containsSub "gherkin".data lbl.data
   then [getKeyJ data "acStyle"] else []) ++
  (if containsSub "response".data lbl.data ||
      containsSub "summary".data lbl.data
   then [jsOrO (getKeyJ data "llmResponse")
          (jsOrO (getKeyJ data "requirements") (getKeyJ data "overview"))]
   else [])

/-- `candidates.find((v) => v && v.trim())`: `none` models the TypeError
of `.trim()` on an object candidate; `some none` means no hit. -/
def findTruthyTrim : List (Option JVal) → Option (Option String)
  | [] => some none
  | none :: rest => findTruthyTrim rest
  | some (.str s) :: rest =>
    if s = "" then findTruthyTrim rest
    else if jsTrim s = "" then findTruthyTrim rest
    else some (some s)
  | some (.obj _) :: rest => none

/-- Per-token score of one select option (`optText`/`optVal` arrive
already lower-cased, as in the source). -/
def tokenScore (optText optVal token : String) : Nat :=
  if optText = token ∨ optVal = token then token.length + 5
  else if containsSub token.data optText.data ||
          containsSub optText.data token.data ||
          containsSub token.data optVal.data then token.length
  else 0

/-- The nested best-match fold over options and tokens; first strictly
better score wins, so ties keep the earliest option. -/
def bestOption (options : List (String × String)) (tokens : List String) :
    Option (String × String) × Nat :=
  options.foldl
    (fun acc opt =>
      let optText := lc opt.1
      let optVal := lc opt.2
      tokens.foldl
        (fun acc2 token =>
          if token = "" then acc2
          else
            let score := tokenScore optText optVal token
            if acc2.2 < score then (some opt, score) else acc2)
        acc)
    (none, 0)

/-- `rolesString.split(",").map(r => r.trim().toLowerCase()).filter(Boolean)`. -/
def roleTokens (s : String) : List String :=
  ((splitOnP (fun c => c = ',') s.data).map
    fun l => lc (⟨trimChars l⟩ : String)).filter (fun t => t ≠ "")

/-- Per-field body of `applyHeuristicMapping` (lines 5625–5702). -/
def heurField (data : JVal) (el : FormField) : Option (FormField × Bool) :=
  if el.value ≠ "" ∧ jsTrim el.value ≠ "" then some (el, false)
  else if disallowedType el.ftype then some (el, false)
  else
    let lbl := lc el.label
    let candidates := heurCandidates data lbl
    if el.tag = "select" then
      match findTruthyTrim candidates with
      | none => none
      | some found =>
        let rolesString := match found with | some s => s | none => ""
        let tokens := roleTokens rolesString
        match (bestOption el.options tokens).1 with
        | some opt => some ({ el with value := opt.2 }, true)
        | none => some (el, false)
    else
      match findTruthyTrim candidates with
      | none => none
      | some (some s) => some ({ el with value := s }, true)
      | some none => some (el, false)

/-- The `forEach` of `applyHeuristicMapping` over the form's fields. -/
def heurGo (data : JVal) : List FormField → Option (List (FormField × Bool))
  | [] => some []
  | el :: rest =>
    match heurField data el with
    | none => none
    | some r =>
      match heurGo data rest with
      | none => none
      | some rs => some (r :: rs)

/-- Source `applyHeuristicMapping`: the updated form and the `applied`
flag (`none` when the source would throw). -/
def applyHeuristicMapping (data : JVal) (form : List FormField) :
    Option (List FormField × Bool) :=
  match heurGo data form with
  | none => none
  | some l => some (l.map Prod.fst, l.any Prod.snd)

/-- A stored project/feature record as `prefillFromProject` sees it: only
its (possibly absent, possibly still-serialised) `details` matter. -/
structure StoredRec where
  details : Option JVal
  deriving DecidableEq, Repr

/-- JS object spread: later entries overwrite earlier bindings. -/
def spreadInto (o : List (String × JVal)) (entries : List (String × JVal)) :
    List (String × JVal) :=
  entries.foldl (fun acc e => setKey acc e.1 e.2) o

/-- The saved raw submission `prefillFromProject` applies first:
`featurePhaseData[phaseKey] || projectPhaseData[phaseKey] || {}`. -/
def prefillPhaseValues (parse : String → Option JVal)
    (proj feat : Option StoredRec) (phaseKey : String) : JVal :=
  let projDetails :=
    match proj with
    | some r => normalizeDetails parse r.details
    | none => .obj []
  let featDetails :=
    match feat with
    | some r => normalizeDetails parse r.details
    | none => .obj []
  let featurePhaseData := jsOrObj (getKeyJ featDetails "phaseData")
  let projectPhaseData := jsOrObj (getKeyJ projDetails "phaseData")
  jsOrObj (jsOrO (getKeyJ featurePhaseData phaseKey)
    (getKeyJ projectPhaseData phaseKey))

/-- Source `prefillFromProject` (lines 6181–6352), its pure core: cache
loading, toasts and the DOM root lookup are outside the model; `parse`
abstracts `JSON.parse` inside `normalizeDetails`.  Returns the mutated
form (`none` when the source would throw). -/
def prefillFromProject (parse : String → Option JVal)
    (proj feat : Option StoredRec) (phaseKey : String)
    (map : List (String × FieldMeta)) (form : List FormField) :
    Option (List FormField) :=
  if proj = none ∧ feat = none then some form
  else
    let projDetails :=
      match proj with
      | some r => normalizeDetails parse r.details
      | none => .obj []
    let featDetails :=
      match feat with
      | some r => normalizeDetails parse r.details
      | none => .obj []
    let featurePhaseData := jsOrObj (getKeyJ featDetails "phaseData")
    let featureGeneral := jsOrObj (getKeyJ featDetails "general")
    let projectPhaseData := jsOrObj (getKeyJ projDetails "phaseData")
    let projectGeneral := jsOrObj (getKeyJ projDetails "general")
    let phaseValues := jsOrObj (jsOrO (getKeyJ featurePhaseData phaseKey)
      (getKeyJ projectPhaseData phaseKey))
    let hasPhaseValues := jsEntries phaseValues ≠ []
    let form1 :=
      if hasPhaseValues then applyRawFormValues (jsEntries phaseValues) form
      else form
    let savedResponse := jsOr (jsOrO
      (getKeyJ (jsOrObj (getKeyJ featurePhaseData phaseKey)) "llmResponse")
      (getKeyJ (jsOrObj (getKeyJ projectPhaseData phaseKey)) "llmResponse"))
    let sources : List JVal :=
      [featureGeneral, projectGeneral,
       jsOrObj (getKeyJ featurePhaseData phaseKey),
       jsOrObj (getKeyJ projectPhaseData phaseKey),
       if truthy savedResponse then .obj [("llmResponse", savedResponse)]
       else .obj []]
    let st2 := setIfEmptyAll form1 hasPhaseValues
      (if phaseKey = "discovery" then
        discoveryPrefill projectGeneral featureGeneral
       else [])
    let st3 := setIfEmptyAll st2.1 st2.2
      (if phaseKey = "stories" then
        storiesPrefill projectGeneral featureGeneral
       else [])
    let st4 := setIfEmptyAll st3.1 st3.2
      (if phaseKey = "requirements" then
        requirementsPrefill projectGeneral featureGeneral
       else [])
    match
      (if map ≠ [] then
        mapPass sources featureGeneral projectGeneral st4.1 st4.2 map
       else some st4) with
    | none => none
    | some st5 =>
      if st5.2 then some st5.1
      else
        let r6 := applyGeneralMapping projectGeneral st5.1
        if r6.2 then some r6.1
        else
          let r7 := applyGeneralMapping featureGeneral r6.1
          if r7.2 then some r7.1
          else
            let data : JVal := .obj (setKey
              (spreadInto
                (spreadInto (spreadInto [] (jsEntries projectGeneral))
                  (jsEntries featureGeneral))
                (jsEntries phaseValues))
              "llmResponse" savedResponse)
            match applyHeuristicMapping data r7.1 with
            | none => none
            | some r8 => some r8.1

/-! ### Keyword extraction from a pasted AI response
(`extractAndPrePopulateNextPhase`, source lines 3582–3720)

The source matches regexes of the shape `/(?:kw1|kw2|…)[^.]*\./gi` with
`String.prototype.match`.  Since no keyword contains a period, such a
regex matches exactly at the leftmost position where some keyword occurs
(case-insensitively) with a later period in the input, the match running
from the keyword through the first period at or after it; scanning
resumes after that period.  `scanGo` implements that with an explicit
fuel (the input length bounds the number of steps). -/

/-- Lower-cased character list. -/
def lcL (l : List Char) : List Char := l.map Char.toLower

/-- Does some keyword match case-insensitively at the head? -/
def isKwAt (kws : List String) (l : List Char) : Bool :=
  kws.any fun kw => isPrefixCh (lcL kw.data) (lcL l)

/-- Is there a period anywhere in the rest of the input? -/
def hasDot (l : List Char) : Bool := l.any fun c => c = '.'

/-- The match at the current position: up to and including the first
period. -/
def takeToDot (l : List Char) : List Char :=
  l.takeWhile (fun c => c ≠ '.') ++ ['.']

/-- Resume position: just past that period. -/
def dropPastDot (l : List Char) : List Char :=
  (l.dropWhile (fun c => c ≠ '.')).drop 1

/-- All regex matches, scanning left to right. -/
def scanGo (kws : List String) : Nat → List Char → List (List Char)
  | 0, _ => []
  | _ + 1, [] => []
  | fuel + 1, c :: rest =>
    if isKwAt kws (c :: rest) ∧ hasDot (c :: rest) then
      takeToDot (c :: rest) :: scanGo kws fuel (dropPastDot (c :: rest))
    else scanGo kws fuel rest

/-- `response.match(/(?:kws…)[^.]*\./gi)` as a list of matches. -/
def scanMatches (kws : List String) (s : String) : List String :=
  (scanGo kws s.data.length s.data).map fun l => (⟨l⟩ : String)

/-- `matches.join(" ").trim()`. -/
def extractJoin (ms : List String) : String := jsTrim (joinWith " " ms)

/-- A discovery-phase field: primary keyword list, then the broader
fallback list when the primary one matched nothing. -/
def extractWithFallback (prim fb : List String) (resp : String) :
    Option String :=
  match scanMatches prim resp with
  | [] =>
    match scanMatches fb resp with
    | [] => none
    | ms => some (extractJoin ms)
  | ms => some (extractJoin ms)

/-- An analysis-phase field: one keyword list, no fallback. -/
def extractSimple (kws : List String) (resp : String) : Option String :=
  match scanMatches kws resp with
  | [] => none
  | ms => some (extractJoin ms)

/-- Primary stakeholder keywords. -/
def stakeholderKws : List String :=
  ["stakeholder", "role", "responsibility", "team", "user", "person",
   "individual", "member", "decision maker", "end user", "support team",
   "participant", "involve", "engage"]

/-- Fallback people keywords. -/
def peopleKws : List String :=
  ["people", "individuals", "users", "staff", "employees", "customers",
   "clients", "managers", "directors", "executives", "teams", "departments"]

/-- Primary pain-point keywords. -/
def painKws : List String :=
  ["pain point", "issue", "problem", "bottleneck", "inefficiency",
   "challenge", "difficulty", "barrier", "obstacle", "frustration",
   "complaint", "gap", "weakness", "limitation", "constraint", "blocker",
   "roadblock"]

/-- Fallback problem keywords. -/
def problemsKws : List String :=
  ["problems", "issues", "challenges", "difficulties", "barriers",
   "obstacles", "frustrations", "complaints", "gaps", "weaknesses",
   "limitations", "constraints", "blockers", "roadblocks"]

/-- Primary metric keywords. -/
def metricKws : List String :=
  ["metric", "kpi", "measure", "performance", "baseline", "target", "goal",
   "objective", "success", "outcome", "result", "indicator", "measurement",
   "benchmark", "standard", "criteria", "threshold"]

/-- Fallback success keywords. -/
def successKws : List String :=
  ["success", "outcome", "result", "performance", "measurement",
   "benchmark", "standard", "criteria", "threshold", "target", "goal",
   "objective"]

/-- Primary technology keywords. -/
def techKws : List String :=
  ["technology", "system", "tool", "platform", "integration", "software",
   "hardware", "database", "api", "interface", "constraint", "limitation",
   "requirement", "dependency", "compatibility", "security", "compliance",
   "performance", "capacity", "resource"]

/-- Fallback technical keywords. -/
def technicalKws : List String :=
  ["technical", "system", "tool", "platform", "integration", "software",
   "hardware", "database", "api", "interface", "constraint", "limitation",
   "requirement", "dependency", "compatibility", "security", "compliance",
   "performance", "capacity", "resource"]

/-- Timeline keywords (analysis phase, no fallback). -/
def timelineKws : List String :=
  ["timeline", "schedule", "duration", "phase", "month", "week"]

/-- Budget keywords (analysis phase, no fallback). -/
def budgetKws : List String :=
  ["budget", "cost", "resource", "investment", "expense"]

/-- Change-readiness keywords (analysis phase, no fallback). -/
def changeKws : List String :=
  ["change", "readiness", "resistance", "adoption", "training"]

/-- `extractedData` for phaseIndex 0 (discovery → analysis), field
insertion order as in the source. -/
def extractDiscoveryData (resp : String) : List (String × String) :=
  (match extractWithFallback stakeholderKws peopleKws resp with
   | some v => [("stakeholders", v)]
   | none => []) ++
  (match extractWithFallback painKws problemsKws resp with
   | some v => [("currentPainPoints", v)]
   | none => []) ++
  (match extractWithFallback metricKws successKws resp with
   | some v => [("successMetrics", v)]
   | none => []) ++
  (match extractWithFallback techKws technicalKws resp with
   | some v => [("technologyConstraints", v)]
   | none => [])

/-- `extractedData` for phaseIndex 1 (analysis → implementation). -/
def extractAnalysisData (resp : String) : List (String × String) :=
  (match extractSimple timelineKws resp with
   | some v => [("implementationTimeline", v)]
   | none => []) ++
  (match extractSimple budgetKws resp with
   | some v => [("budgetConstraints", v)]
   | none => []) ++
  (match extractSimple changeKws resp with
   | some v => [("changeReadiness", v)]
   | none => [])

/-- C9's claim, taken at its word: split the input on sentence
terminators, keep every (trimmed, non-empty) sentence containing at least
one keyword case-insensitively, and concatenate the kept sentences. -/
def claimSentenceExtract (kws : List String) (resp : String) : String :=
  joinWith " "
    (((splitOnP (fun c => c = '.' || c = '!' || c = '?') resp.data).map
      fun l => (⟨trimChars l⟩ : String)).filter
        fun sent => sent ≠ "" ∧
          kws.any fun kw => containsSub (lc kw).data (lc sent).data)

/-- Best token score one option attains over a token list (empty tokens
skipped), peeled off `bestOption`'s inner fold. -/
def tokScoreMax (ot ov : String) : List String → Nat
  | [] => 0
  | t :: ts =>
    if t = "" then tokScoreMax ot ov ts
    else max (tokenScore ot ov t) (tokScoreMax ot ov ts)

/-- `tokScoreMax` on an option's lower-cased text and value. -/
def optScoreL (opt : String × String) (tokens : List String) : Nat :=
  tokScoreMax (lc opt.1) (lc opt.2) tokens

/-- Best `optScoreL` over a whole option list. -/
def maxScoreL (tokens : List String) : List (String × String) → Nat
  | [] => 0
  | o :: os => max (optScoreL o tokens) (maxScoreL tokens os)

/-! ## Theorems

First the generic toolbox: trimming, splitting, joining, membership. -/

theorem dropWhile_self {α : Type} (p : α → Bool) (l : List α) :
    (l.dropWhile p).dropWhile p = l.dropWhile p := by
  induction l with
  | nil => rfl
  | cons a l ih =>
    by_cases h : p a = true
    · simp [List.dropWhile, h, ih]
    · simp [List.dropWhile, h]

theorem dropWhile_head_false {α : Type} (p : α → Bool) (l : List α) (a : α)
    (t : List α) (h : l.dropWhile p = a :: t) : p a = false := by
  induction l with
  | nil => simp [List.dropWhile] at h
  | cons b l ih =>
    by_cases hb : p b = true
    · exact ih (by simpa [List.dropWhile, hb] using h)
    · simp only [List.dropWhile, hb] at h
      cases h
      simpa using hb

theorem dropWhile_eats {α : Type} (p : α → Bool) (l : List α) :
    ∃ s, l = s ++ l.dropWhile p := by
  induction l with
  | nil => exact ⟨[], rfl⟩
  | cons a l ih =>
    by_cases h : p a = true
    · obtain ⟨s, hs⟩ := ih
      exact ⟨a :: s, by simpa [List.dropWhile, h] using congrArg (a :: ·) hs⟩
    · exact ⟨[], by simp [List.dropWhile, h]⟩

theorem mem_trimL (c : Char) (l : List Char) (h : c ∈ trimL l) : c ∈ l :=
  (List.dropWhile_sublist wsChar).subset h

theorem mem_trimChars (c : Char) (l : List Char) (h : c ∈ trimChars l) :
    c ∈ l := by
  have h1 : c ∈ trimL l := by
    have := mem_trimL c (trimL l).reverse (by simpa [trimChars, trimR] using h)
    simpa using this
  exact mem_trimL c l h1

theorem trimR_trimR (l : List Char) : trimR (trimR l) = trimR l := by
  simp [trimR, trimL, dropWhile_self]

theorem trimL_trimChars (l : List Char) :
    trimL (trimChars l) = trimChars l := by
  rcases h : trimChars l with _ | ⟨c, t⟩
  · rfl
  · obtain ⟨s, hs⟩ := dropWhile_eats wsChar (trimL l).reverse
    have hl : trimL l = (c :: t) ++ s.reverse := by
      have h2 := congrArg List.reverse hs
      rw [List.reverse_reverse, List.reverse_append] at h2
      have h3 : ((trimL l).reverse.dropWhile wsChar).reverse = c :: t := by
        have h4 : trimChars l = ((trimL l).reverse.dropWhile wsChar).reverse :=
          rfl
        rw [← h4, h]
      rw [h3] at h2
      exact h2
    have hc : wsChar c = false :=
      dropWhile_head_false wsChar l c (t ++ s.reverse)
        (by simpa [trimL, List.append_assoc] using hl)
    simp [trimL, List.dropWhile_cons, hc]

theorem trimChars_trimChars (l : List Char) :
    trimChars (trimChars l) = trimChars l := by
  show trimR (trimL (trimChars l)) = trimChars l
  rw [trimL_trimChars]
  show trimR (trimR (trimL l)) = trimR (trimL l)
  exact trimR_trimR (trimL l)

theorem trimChars_cons_space (l : List Char) :
    trimChars (' ' :: l) = trimChars l := by
  simp [trimChars, trimL, List.dropWhile, wsChar]

theorem jsTrim_jsTrim (s : String) : jsTrim (jsTrim s) = jsTrim s := by
  simp [jsTrim, trimChars_trimChars]

theorem data_eq_nil_iff (s : String) : s.data = [] ↔ s = "" := by
  constructor
  · intro h
    exact String.ext (by simpa using h)
  · intro h
    rw [h]

theorem mk_data (s : String) : (⟨s.data⟩ : String) = s := by
  cases s
  rfl

theorem filter_cons_pos {α : Type} (p : α → Bool) (a : α) (l : List α)
    (h : p a = true) : List.filter p (a :: l) = a :: List.filter p l := by
  simp [List.filter_cons, h]

theorem member_iff (x : String) (l : List String) :
    member x l = true ↔ x ∈ l := by
  induction l with
  | nil => simp [member]
  | cons y ys ih =>
    simp only [member, Bool.or_eq_true, decide_eq_true_eq, ih, List.mem_cons]
    constructor
    · rintro (h | h)
      · exact Or.inl h.symm
      · exact Or.inr h
    · rintro (h | h)
      · exact Or.inl h.symm
      · exact Or.inr h

theorem splitOnP_ne_nil (p : Char → Bool) (l : List Char) :
    splitOnP p l ≠ [] := by
  cases l with
  | nil => simp [splitOnP]
  | cons c cs =>
    simp only [splitOnP]
    rcases h : splitOnP p cs with _ | ⟨piece, rest⟩
    · simp
    · by_cases hc : p c = true <;> simp [hc]

theorem splitOnP_pieces (p : Char → Bool) (l : List Char) :
    ∀ piece ∈ splitOnP p l, ∀ c ∈ piece, p c = false := by
  induction l with
  | nil =>
    intro piece hp c hc
    simp [splitOnP] at hp
    subst hp
    simp at hc
  | cons a l ih =>
    intro piece hp c hc
    rcases h : splitOnP p l with _ | ⟨q, rest⟩
    · exact absurd h (splitOnP_ne_nil p l)
    · simp only [splitOnP, h] at hp
      by_cases ha : p a = true
      · rw [if_pos ha] at hp
        rcases List.mem_cons.mp hp with hp1 | hp2
        · subst hp1; simp at hc
        · exact ih piece (by rw [h]; exact hp2) c hc
      · rw [if_neg ha] at hp
        rcases List.mem_cons.mp hp with hp1 | hp2
        · subst hp1
          rcases List.mem_cons.mp hc with hc1 | hc2
          · subst hc1; simpa using ha
          · exact ih q (by rw [h]; exact List.mem_cons_self q rest) c hc2
        · exact ih piece
            (by rw [h]; exact List.mem_cons_of_mem q hp2) c hc

theorem splitOnP_all_false (p : Char → Bool) (l : List Char)
    (h : ∀ c ∈ l, p c = false) : splitOnP p l = [l] := by
  induction l with
  | nil => rfl
  | cons a l ih =>
    have ha : p a = false := h a (by simp)
    have := ih (fun c hc => h c (by simp [hc]))
    simp [splitOnP, this, ha]

theorem splitOnP_append (p : Char → Bool) (a : List Char) (d : Char)
    (r : List Char) (ha : ∀ c ∈ a, p c = false) (hd : p d = true) :
    splitOnP p (a ++ d :: r) = a :: splitOnP p r := by
  induction a with
  | nil =>
    rcases h : splitOnP p r with _ | ⟨q, rest⟩
    · exact absurd h (splitOnP_ne_nil p r)
    · simp [splitOnP, h, hd]
  | cons x xs ih =>
    have hx : p x = false := ha x (by simp)
    have := ih (fun c hc => ha c (by simp [hc]))
    simp [splitOnP, this, hx]

theorem joinWith_data_cons (sep : String) (x y : String) (rest : List String) :
    (joinWith sep (x :: y :: rest)).data =
      x.data ++ sep.data ++ (joinWith sep (y :: rest)).data := by
  simp [joinWith, String.data_append]

/-! Facts about `normalizeList`. -/

theorem normalizeList_mem (s : String) (x : String)
    (hx : x ∈ normalizeList s) :
    x ≠ "" ∧ trimChars x.data = x.data ∧ ∀ c ∈ x.data, isDelim c = false := by
  simp only [normalizeList, List.mem_filter, List.mem_map] at hx
  obtain ⟨⟨piece, hpiece, hxeq⟩, hne⟩ := hx
  subst hxeq
  refine ⟨by simpa using hne, by simp [trimChars_trimChars], ?_⟩
  intro c hc
  exact splitOnP_pieces isDelim s.data piece hpiece c
    (mem_trimChars c piece (by simpa using hc))

theorem normalizeList_cons_space (w : List Char) :
    normalizeList ⟨' ' :: w⟩ = normalizeList ⟨w⟩ := by
  rcases h : splitOnP isDelim w with _ | ⟨piece, rest⟩
  · exact absurd h (splitOnP_ne_nil isDelim w)
  · have hsp : splitOnP isDelim (' ' :: w) = (' ' :: piece) :: rest := by
      simp [splitOnP, h, isDelim]
    show (((splitOnP isDelim (' ' :: w)).map
        fun l => (⟨trimChars l⟩ : String)).filter fun s => s ≠ "") =
      ((splitOnP isDelim w).map fun l => (⟨trimChars l⟩ : String)).filter
        fun s => s ≠ ""
    rw [hsp, h, List.map_cons, List.map_cons, trimChars_cons_space]

theorem normalizeList_join (items : List String)
    (h : ∀ x ∈ items, x ≠ "" ∧ trimChars x.data = x.data ∧
      ∀ c ∈ x.data, isDelim c = false) :
    normalizeList (joinWith ", " items) = items := by
  induction items with
  | nil => rfl
  | cons x rest ih =>
    obtain ⟨hne, htrim, hdelim⟩ := h x (by simp)
    have hxpos : (decide (x ≠ "") : Bool) = true := by simpa using hne
    cases rest with
    | nil =>
      show (((splitOnP isDelim (joinWith ", " [x]).data).map
          fun l => (⟨trimChars l⟩ : String)).filter fun s => s ≠ "") = [x]
      rw [show (joinWith ", " [x]).data = x.data from rfl,
        splitOnP_all_false isDelim x.data hdelim, List.map_cons, htrim,
        mk_data, List.map_nil]
      simp [List.filter_cons, hne]
    | cons y rest2 =>
      have hdata : (joinWith ", " (x :: y :: rest2)).data =
          x.data ++ ',' :: ' ' :: (joinWith ", " (y :: rest2)).data := by
        rw [joinWith_data_cons]
        rw [show (", " : String).data = [',', ' '] from rfl]
        simp [List.append_assoc]
      have hsplit : splitOnP isDelim (joinWith ", " (x :: y :: rest2)).data =
          x.data ::
            splitOnP isDelim (' ' :: (joinWith ", " (y :: rest2)).data) := by
        rw [hdata]
        exact splitOnP_append isDelim x.data ','
          (' ' :: (joinWith ", " (y :: rest2)).data) hdelim (by simp [isDelim])
      have htail : normalizeList ⟨' ' :: (joinWith ", " (y :: rest2)).data⟩ =
          y :: rest2 := by
        rw [normalizeList_cons_space, mk_data]
        exact ih (fun z hz => h z (by simp [hz]))
      show (((splitOnP isDelim (joinWith ", " (x :: y :: rest2)).data).map
          fun l => (⟨trimChars l⟩ : String)).filter fun s => s ≠ "") =
        x :: y :: rest2
      rw [hsplit, List.map_cons, htrim, mk_data, List.filter_cons,
        if_pos hxpos]
      exact congrArg (fun t => x :: t) htail

/-! Facts about `member`, `keepNew` and `mergeList`. -/

theorem member_append (x : String) (l₁ l₂ : List String) :
    member x (l₁ ++ l₂) = (member x l₁ || member x l₂) := by
  induction l₁ with
  | nil => simp [member]
  | cons y ys ih => simp [member, ih, Bool.or_assoc]

theorem mergeFold (incoming : List String) : ∀ base seen : List String,
    incoming.foldl mergeStep (base, seen) =
      (base ++ keepNew seen incoming,
       seen ++ (keepNew seen incoming).map lc) := by
  induction incoming with
  | nil => intro base seen; simp [keepNew]
  | cons v vs ih =>
    intro base seen
    rw [List.foldl_cons]
    by_cases hv : v = ""
    · rw [show mergeStep (base, seen) v = (base, seen) by
        simp [mergeStep, hv]]
      rw [ih base seen]
      simp [keepNew, hv]
    · by_cases hc : jsTrim v ≠ "" ∧ ¬ member (lc (jsTrim v)) seen = true
      · rw [show mergeStep (base, seen) v =
            (base ++ [jsTrim v], seen ++ [lc (jsTrim v)]) by
          simp only [mergeStep, if_neg hv]
          exact if_pos hc]
        rw [ih (base ++ [jsTrim v]) (seen ++ [lc (jsTrim v)])]
        have hk : keepNew seen (v :: vs) =
            jsTrim v :: keepNew (seen ++ [lc (jsTrim v)]) vs := by
          simp only [keepNew, if_neg hv]
          exact if_pos hc
        rw [hk]
        simp [List.append_assoc]
      · rw [show mergeStep (base, seen) v = (base, seen) by
          simp only [mergeStep, if_neg hv]
          exact if_neg hc]
        rw [ih base seen]
        have hk : keepNew seen (v :: vs) = keepNew seen vs := by
          simp only [keepNew, if_neg hv]
          exact if_neg hc
        rw [hk]

theorem mergeList_eq (existing : String) (incoming : List String) :
    mergeList existing incoming =
      joinWith ", " (normalizeList existing ++
        keepNew ((normalizeList existing).map lc) incoming) := by
  show joinWith ", " (incoming.foldl mergeStep
    (normalizeList existing, (normalizeList existing).map lc)).1 = _
  rw [mergeFold]

theorem keepNew_mem (l : List String) : ∀ (seen : List String) (x : String),
    x ∈ keepNew seen l →
      x ≠ "" ∧ trimChars x.data = x.data ∧ ∃ v ∈ l, x = jsTrim v := by
  induction l with
  | nil => intro seen x hx; simp [keepNew] at hx
  | cons v vs ih =>
    intro seen x hx
    by_cases hv : v = ""
    · rw [show keepNew seen (v :: vs) = keepNew seen vs by
        simp [keepNew, hv]] at hx
      obtain ⟨h1, h2, w, hw, hxw⟩ := ih seen x hx
      exact ⟨h1, h2, w, by simp [hw], hxw⟩
    · by_cases hc : jsTrim v ≠ "" ∧ ¬ member (lc (jsTrim v)) seen = true
      · rw [show keepNew seen (v :: vs) =
            jsTrim v :: keepNew (seen ++ [lc (jsTrim v)]) vs by
          simp only [keepNew, if_neg hv]; exact if_pos hc] at hx
        rcases List.mem_cons.mp hx with h1 | h2
        · subst h1
          exact ⟨hc.1, by simp [jsTrim, trimChars_trimChars],
            v, by simp, rfl⟩
        · obtain ⟨h1, h2, w, hw, hxw⟩ := ih (seen ++ [lc (jsTrim v)]) x h2
          exact ⟨h1, h2, w, by simp [hw], hxw⟩
      · rw [show keepNew seen (v :: vs) = keepNew seen vs by
          simp only [keepNew, if_neg hv]; exact if_neg hc] at hx
        obtain ⟨h1, h2, w, hw, hxw⟩ := ih seen x hx
        exact ⟨h1, h2, w, by simp [hw], hxw⟩

theorem keepNew_sound (l : List String) : ∀ seen : List String,
    (∀ x ∈ keepNew seen l, member (lc x) seen = false) ∧
    (keepNew seen l).Pairwise (fun a b => lc a ≠ lc b) := by
  induction l with
  | nil => intro seen; simp [keepNew]
  | cons v vs ih =>
    intro seen
    by_cases hv : v = ""
    · rw [show keepNew seen (v :: vs) = keepNew seen vs by
        simp [keepNew, hv]]
      exact ih seen
    · by_cases hc : jsTrim v ≠ "" ∧ ¬ member (lc (jsTrim v)) seen = true
      · rw [show keepNew seen (v :: vs) =
            jsTrim v :: keepNew (seen ++ [lc (jsTrim v)]) vs by
          simp only [keepNew, if_neg hv]; exact if_pos hc]
        obtain ⟨ihmem, ihpw⟩ := ih (seen ++ [lc (jsTrim v)])
        constructor
        · intro x hx
          rcases List.mem_cons.mp hx with h1 | h2
          · subst h1
            exact Bool.eq_false_iff.mpr hc.2
          · have := ihmem x h2
            rw [member_append] at this
            exact (Bool.or_eq_false_iff.mp this).1
        · refine List.Pairwise.cons ?_ ihpw
          intro b hb heq
          have := ihmem b hb
          rw [member_append] at this
          have h2 := (Bool.or_eq_false_iff.mp this).2
          simp [member, heq] at h2
      · rw [show keepNew seen (v :: vs) = keepNew seen vs by
          simp only [keepNew, if_neg hv]; exact if_neg hc]
        exact ih seen

theorem keepNew_complete (l : List String) : ∀ (seen : List String)
    (v : String), v ∈ l → v ≠ "" → jsTrim v ≠ "" →
    member (lc (jsTrim v)) seen = true ∨
      ∃ x ∈ keepNew seen l, lc x = lc (jsTrim v) := by
  induction l with
  | nil => intro seen v hv; simp at hv
  | cons w ws ih =>
    intro seen v hv hne htne
    by_cases hw : w = ""
    · rcases List.mem_cons.mp hv with h1 | h2
      · exact absurd (h1.trans hw) hne
      · rw [show keepNew seen (w :: ws) = keepNew seen ws by
          simp [keepNew, hw]]
        exact ih seen v h2 hne htne
    · by_cases hc : jsTrim w ≠ "" ∧ ¬ member (lc (jsTrim w)) seen = true
      · rw [show keepNew seen (w :: ws) =
            jsTrim w :: keepNew (seen ++ [lc (jsTrim w)]) ws by
          simp only [keepNew, if_neg hw]; exact if_pos hc]
        rcases List.mem_cons.mp hv with h1 | h2
        · subst h1
          exact Or.inr ⟨jsTrim v, by simp, rfl⟩
        · rcases ih (seen ++ [lc (jsTrim w)]) v h2 hne htne with h | ⟨x, hx, hlx⟩
          · rw [member_append] at h
            by_cases hm : member (lc (jsTrim v)) seen = true
            · exact Or.inl hm
            · refine Or.inr ⟨jsTrim w, by simp, ?_⟩
              have hm2 : member (lc (jsTrim v)) [lc (jsTrim w)] = true := by
                rcases h3 : member (lc (jsTrim v)) seen with _ | _
                · simpa [h3] using h
                · exact absurd h3 hm
              simpa [member] using hm2.symm
          · exact Or.inr ⟨x, by simp [hx], hlx⟩
      · rw [show keepNew seen (w :: ws) = keepNew seen ws by
          simp only [keepNew, if_neg hw]; exact if_neg hc]
        rcases List.mem_cons.mp hv with h1 | h2
        · subst h1
          rcases not_and_or.mp hc with h | h
          · exact absurd htne (by simpa using h)
          · exact Or.inl (by simpa using h)
        · exact ih seen v h2 hne htne

/-- All items of the merged list satisfy the round-trip conditions. -/
theorem merged_items_ok (existing : String) (incoming : List String)
    (hinc : ∀ v ∈ incoming, ∀ c ∈ v.data, isDelim c = false) :
    ∀ x ∈ normalizeList existing ++
        keepNew ((normalizeList existing).map lc) incoming,
      x ≠ "" ∧ trimChars x.data = x.data ∧ ∀ c ∈ x.data, isDelim c = false := by
  intro x hx
  rcases List.mem_append.mp hx with h | h
  · exact normalizeList_mem existing x h
  · obtain ⟨h1, h2, v, hv, hxv⟩ := keepNew_mem incoming _ x h
    refine ⟨h1, h2, ?_⟩
    intro c hc
    subst hxv
    exact hinc v hv c (mem_trimChars c v.data (by simpa [jsTrim] using hc))

/-- C2 (counterexample): the claim appends *exactly* the incoming items
whose case-insensitive form is absent from the current list; on incoming
["B", "b"] with current "A" that predicts "A, B, b", but `mergeList` also
deduplicates within the incoming list and returns "A, B". -/
theorem C2_counterexample :
    claimMergeC2 "A" ["B", "b"] = "A, B, b" ∧
      mergeList "A" ["B", "b"] = "A, B" ∧ ("A, B" : String) ≠ "A, B, b" :=
  ⟨by decide, by decide, by decide⟩

/-- C2 (amended): `mergeList` keeps every existing normalized item in its
original order and removes nothing, appending exactly those incoming
items (trimmed) whose case-insensitive form is absent from the current
list *and from the items already appended before them*, in encounter
order, joined with ", "; in particular merging "Alice - PM, Bob - Dev"
with incoming "bob - Dev, Carol - QA" yields
"Alice - PM, Bob - Dev, Carol - QA". -/
theorem C2_list_merge :
    (∀ existing incoming, mergeList existing incoming =
      joinWith ", " (normalizeList existing ++
        keepNew ((normalizeList existing).map lc) incoming)) ∧
    mergeList "Alice - PM, Bob - Dev" ["bob - Dev", "Carol - QA"] =
      "Alice - PM, Bob - Dev, Carol - QA" :=
  ⟨mergeList_eq, by decide⟩

/-- C10 (counterexample): the merged string can contain case-insensitive
duplicates — `mergeList` never removes duplicates already present in the
stored string, so merging "a, A" with nothing keeps both "a" and "A". -/
theorem C10_counterexample :
    ¬ (normalizeList (mergeList "a, A" [])).Pairwise
      (fun a b => lc a ≠ lc b) := by
  decide

/-- C10 (amended): provided the *stored* list is itself free of
case-insensitive duplicates and the incoming items contain no list
delimiters, the merged output, split back into items, contains no two
case-insensitively equal items. -/
theorem C10_no_duplicates (existing : String) (incoming : List String)
    (hex : (normalizeList existing).Pairwise (fun a b => lc a ≠ lc b))
    (hinc : ∀ v ∈ incoming, ∀ c ∈ v.data, isDelim c = false) :
    (normalizeList (mergeList existing incoming)).Pairwise
      (fun a b => lc a ≠ lc b) := by
  rw [mergeList_eq,
    normalizeList_join _ (merged_items_ok existing incoming hinc)]
  rw [List.pairwise_append]
  refine ⟨hex, (keepNew_sound incoming _).2, ?_⟩
  intro a ha b hb heq
  have hmem := (keepNew_sound incoming ((normalizeList existing).map lc)).1 b hb
  have : member (lc b) ((normalizeList existing).map lc) = true :=
    (member_iff _ _).mpr (List.mem_map.mpr ⟨a, ha, heq⟩)
  rw [this] at hmem
  exact Bool.true_eq_false.mp hmem

/-- C10 (witness): the amended theorem at a concrete input. -/
theorem C10_witness :
    (normalizeList (mergeList "Alice" ["bob", "Bob"])).Pairwise
      (fun a b => lc a ≠ lc b) :=
  C10_no_duplicates "Alice" ["bob", "Bob"] (by decide) (by decide)

/-! Facts about `setByPath` / `getByPath` on effectively-writable paths. -/

theorem lookup_setKey_same (o : List (String × JVal)) (k : String) (v : JVal) :
    lookupKey (setKey o k v) k = some v := by
  induction o with
  | nil => simp [setKey, lookupKey]
  | cons b rest ih =>
    obtain ⟨k', v'⟩ := b
    by_cases h : k' = k
    · simp [setKey, lookupKey, h]
    · simp [setKey, lookupKey, h, ih]

theorem lookup_setKey_other (o : List (String × JVal)) (k k' : String)
    (v : JVal) (h : k ≠ k') :
    lookupKey (setKey o k v) k' = lookupKey o k' := by
  induction o with
  | nil => simp [setKey, lookupKey, h]
  | cons b rest ih =>
    obtain ⟨k2, v2⟩ := b
    by_cases h2 : k2 = k
    · subst h2
      simp [setKey, lookupKey, h]
    · simp [setKey, lookupKey, h2, ih]

theorem ew_obj (t : JVal) (p : List String) (h : ew t p = true) :
    ∃ o, t = .obj o := by
  cases t with
  | obj o => exact ⟨o, rfl⟩
  | str s =>
    cases p with
    | nil => simp [ew] at h
    | cons k rest => simp [ew] at h

theorem setSegs_obj (o : List (String × JVal)) (p : List String) (x t' : JVal)
    (h : setSegs (.obj o) p x = some t') : ∃ o', t' = .obj o' := by
  cases p with
  | nil => exact ⟨o, by simpa [setSegs] using h.symm⟩
  | cons k rest =>
    cases rest with
    | nil =>
      refine ⟨setKey o k x, ?_⟩
      simpa [setSegs] using h.symm
    | cons k2 rest2 =>
      simp only [setSegs] at h
      cases hr : setSegs (normChild (lookupKey o k)) (k2 :: rest2) x with
      | none => rw [hr] at h; simp at h
      | some r =>
        rw [hr] at h
        simp at h
        exact ⟨setKey o k r, h.symm⟩

theorem foldl_getStep_none (p : List String) :
    p.foldl getStep none = none := by
  induction p with
  | nil => rfl
  | cons k rest ih => simpa [getStep] using ih

theorem getSegs_str_cons (s : String) (k : String) (p : List String) :
    getSegs (.str s) (k :: p) = none := by
  have h : getStep (some (.str s)) k = none := by
    by_cases hs : s = "" <;> simp [getStep, truthy, hs]
  show p.foldl getStep (getStep (some (.str s)) k) = none
  rw [h]
  exact foldl_getStep_none p

theorem getSegs_obj_cons (o : List (String × JVal)) (k : String)
    (p : List String) :
    getSegs (.obj o) (k :: p) = p.foldl getStep (lookupKey o k) := by
  show p.foldl getStep (getStep (some (.obj o)) k) = _
  rw [show getStep (some (.obj o)) k = lookupKey o k by
    simp [getStep, truthy]]

theorem ew_set_get (p : List String) : ∀ (t x : JVal), ew t p = true →
    ∃ t', setSegs t p x = some t' ∧ getSegs t' p = some x := by
  induction p with
  | nil => intro t x h; simp [ew] at h
  | cons k rest ih =>
    intro t x h
    obtain ⟨o, rfl⟩ := ew_obj _ _ h
    cases rest with
    | nil =>
      refine ⟨.obj (setKey o k x), rfl, ?_⟩
      rw [getSegs_obj_cons, lookup_setKey_same]
      rfl
    | cons k2 rest2 =>
      have hew : ew (normChild (lookupKey o k)) (k2 :: rest2) = true := by
        simpa [ew] using h
      obtain ⟨r, hr, hg⟩ := ih (normChild (lookupKey o k)) x hew
      refine ⟨.obj (setKey o k r), ?_, ?_⟩
      · simp [setSegs, hr]
      · rw [getSegs_obj_cons, lookup_setKey_same]
        exact hg

theorem setSegs_frame (p : List String) : ∀ (t t' x : JVal) (q : List String),
    setSegs t p x = some t' → isSegPre p q = false → isSegPre q p = false →
    getSegs t' q = getSegs t q := by
  induction p with
  | nil => intro t t' x q hset hpq _; simp [isSegPre] at hpq
  | cons k prest ih =>
    intro t t' x q hset hpq hqp
    cases q with
    | nil => simp [isSegPre] at hqp
    | cons h2 qrest =>
      cases t with
      | str s =>
        cases prest with
        | nil =>
          simp only [setSegs] at hset
          cases hset
          rfl
        | cons _ _ => simp [setSegs] at hset
      | obj o =>
        by_cases hk : h2 = k
        · subst hk
          cases prest with
          | nil => simp [isSegPre] at hpq
          | cons k2 prest2 =>
            cases qrest with
            | nil => simp [isSegPre] at hqp
            | cons q2 qrest2 =>
              have hpq' : isSegPre (k2 :: prest2) (q2 :: qrest2) = false := by
                simpa [isSegPre] using hpq
              have hqp' : isSegPre (q2 :: qrest2) (k2 :: prest2) = false := by
                simpa [isSegPre] using hqp
              simp only [setSegs] at hset
              cases hr : setSegs (normChild (lookupKey o h2)) (k2 :: prest2) x
                with
              | none => rw [hr] at hset; simp at hset
              | some r =>
                rw [hr] at hset
                simp only [Option.map_some', Option.some.injEq] at hset
                subst hset
                have hstep := ih (normChild (lookupKey o h2)) r x
                  (q2 :: qrest2) hr hpq' hqp'
                rw [getSegs_obj_cons, lookup_setKey_same, getSegs_obj_cons]
                show getSegs r (q2 :: qrest2) = _
                rw [hstep]
                cases hc : lookupKey o h2 with
                | none =>
                  rw [foldl_getStep_none]
                  simp [normChild, getSegs_obj_cons, lookupKey,
                    foldl_getStep_none]
                | some cv =>
                  cases cv with
                  | obj o2 =>
                    rw [show normChild (some (JVal.obj o2)) = .obj o2 by
                      simp [normChild, truthy]]
                    rfl
                  | str s =>
                    by_cases hs : s = ""
                    · subst hs
                      rw [show normChild (some (.str "")) = .obj [] by
                        simp [normChild, truthy]]
                      rw [getSegs_obj_cons]
                      show _ = getSegs (.str "") (q2 :: qrest2)
                      rw [getSegs_str_cons]
                      simp [lookupKey, foldl_getStep_none]
                    · rw [show normChild (some (.str s)) = .str s by
                        simp [normChild, truthy, hs]]
                      rw [getSegs_str_cons]
                      show _ = getSegs (.str s) (q2 :: qrest2)
                      rw [getSegs_str_cons]
        · cases prest with
          | nil =>
            simp only [setSegs] at hset
            cases hset
            rw [getSegs_obj_cons, getSegs_obj_cons,
              lookup_setKey_other o k h2 x (fun hkk => hk hkk.symm)]
          | cons k2 prest2 =>
            simp only [setSegs] at hset
            cases hr : setSegs (normChild (lookupKey o k)) (k2 :: prest2) x
              with
            | none => rw [hr] at hset; simp at hset
            | some r =>
              rw [hr] at hset
              simp only [Option.map_some', Option.some.injEq] at hset
              subst hset
              rw [getSegs_obj_cons, getSegs_obj_cons,
                lookup_setKey_other o k h2 r (fun hkk => hk hkk.symm)]

theorem setSegs_ew_pres (q : List String) : ∀ (t t' x : JVal)
    (p : List String), setSegs t p x = some t' → ew t q = true →
    (p = q ∨ isSegPre p q = false) → ew t' q = true := by
  induction q with
  | nil => intro t t' x p _ hew _; simp [ew] at hew
  | cons k qrest ih =>
    intro t t' x p hset hew hcond
    obtain ⟨o, rfl⟩ := ew_obj _ _ hew
    cases qrest with
    | nil =>
      obtain ⟨o', rfl⟩ := setSegs_obj o p x t' hset
      rfl
    | cons k2 q2 =>
      have hchild : ew (normChild (lookupKey o k)) (k2 :: q2) = true := by
        simpa [ew] using hew
      cases p with
      | nil =>
        simp only [setSegs, Option.some.injEq] at hset
        subst hset
        simpa [ew] using hchild
      | cons h hrest =>
        cases hrest with
        | nil =>
          by_cases hk : h = k
          · subst hk
            rcases hcond with hcond | hcond
            · simp at hcond
            · simp [isSegPre] at hcond
          · simp only [setSegs, Option.some.injEq] at hset
            subst hset
            show ew (normChild (lookupKey (setKey o h x) k)) (k2 :: q2) = true
            rw [lookup_setKey_other o h k x hk]
            exact hchild
        | cons h2 p2 =>
          simp only [setSegs] at hset
          cases hr : setSegs (normChild (lookupKey o h)) (h2 :: p2) x with
          | none => rw [hr] at hset; simp at hset
          | some r =>
            rw [hr] at hset
            simp only [Option.map_some', Option.some.injEq] at hset
            subst hset
            by_cases hk : h = k
            · subst hk
              have hcond' : h2 :: p2 = k2 :: q2 ∨
                  isSegPre (h2 :: p2) (k2 :: q2) = false := by
                rcases hcond with hcond | hcond
                · injection hcond with hhd htl
                  exact Or.inl htl
                · right
                  simpa [isSegPre] using hcond
              have hr2 := ih (normChild (lookupKey o h)) r x (h2 :: p2) hr
                hchild hcond'
              show ew (normChild (lookupKey (setKey o h r) h)) (k2 :: q2) =
                true
              rw [lookup_setKey_same]
              obtain ⟨o2, rfl⟩ := ew_obj _ _ hr2
              simpa [normChild, truthy] using hr2
            · show ew (normChild (lookupKey (setKey o h r) k)) (k2 :: q2) =
                true
              rw [lookup_setKey_other o h k r hk]
              exact hchild

theorem ew_emptyObj (p : List String) (h : p ≠ []) :
    ew (.obj []) p = true := by
  induction p with
  | nil => exact absurd rfl h
  | cons k rest ih =>
    cases rest with
    | nil => rfl
    | cons k2 rest2 =>
      show ew (normChild (lookupKey [] k)) (k2 :: rest2) = true
      exact ih (by simp)

theorem ew_emptyGeneral (p : List String) (h : p ≠ []) :
    ew emptyGeneral p = true := by
  cases p with
  | nil => exact absurd rfl h
  | cons k rest =>
    cases rest with
    | nil => rfl
    | cons k2 rest2 =>
      show ew (normChild (lookupKey [("general", .obj [])] k))
        (k2 :: rest2) = true
      by_cases hk : k = "general"
      · rw [show lookupKey [("general", .obj [])] k = some (.obj []) by
          simp [lookupKey, hk]]
        exact ew_emptyObj _ (by simp)
      · rw [show lookupKey [("general", .obj [])] k = none by
          simp [lookupKey]
          exact fun hkk => hk hkk.symm]
        exact ew_emptyObj _ (by simp)

theorem isSegPre_refl (p : List String) : isSegPre p p = true := by
  induction p with
  | nil => rfl
  | cons k rest ih => simp [isSegPre, ih]

theorem segs_ne_nil (path : String) : segs path ≠ [] := by
  intro h
  have := splitOnP_ne_nil (fun c => c = '.') path.data
  simp only [segs] at h
  exact this (List.map_eq_nil_iff.mp h)

theorem setByPath_obj (o : List (String × JVal)) (path : String) (v : JVal)
    (h : path ≠ "") :
    setByPath (.obj o) path v = setSegs (.obj o) (segs path) v := by
  simp [setByPath, truthy, h]

theorem getByPath_obj (o : List (String × JVal)) (path : String)
    (h : path ≠ "") :
    getByPath (.obj o) path = getSegs (.obj o) (segs path) := by
  simp [getByPath, truthy, h]

/-! Facts about `fieldDecision`, `processField` and `deriveGo`. -/

theorem jsOr_str (m : String) : jsOr (some (.str m)) = .str m := by
  by_cases h : m = "" <;> simp [jsOr, truthy, h]

theorem processField_eq (project feature : Option JVal)
    (fv : List (String × Option String)) (st : DeriveState)
    (e : String × FieldMeta) :
    processField project feature fv st e =
      match fieldDecision project feature fv e with
      | none => none
      | some none => some st
      | some (some sugg) =>
        match sugg.entity with
        | .project =>
          (setByPath st.projectUpdates sugg.path (.str sugg.newValue)).map
            fun u => ⟨u, st.featureUpdates, st.suggestions ++ [sugg]⟩
        | .feature =>
          (setByPath st.featureUpdates sugg.path (.str sugg.newValue)).map
            fun u => ⟨st.projectUpdates, u, st.suggestions ++ [sugg]⟩ := by
  obtain ⟨fieldKey, meta⟩ := e
  obtain ⟨ent, path, lbl, isl⟩ := meta
  cases hlk : lookupFV fv fieldKey with
  | none => simp [processField, fieldDecision, hlk]
  | some ov =>
    cases ov with
    | none => simp [processField, fieldDecision, hlk]
    | some value =>
      cases ent with
    | project =>
      by_cases htr : jsTrim value = ""
      · simp [processField, fieldDecision, hlk, htr]
      · cases isl with
        | true =>
          by_cases hii : normalizeList (jsTrim value) = []
          · simp [processField, fieldDecision, hlk, htr, hii]
          · cases hcv : jsOr (getByPath (detailsOrEmpty project) path) with
            | obj o =>
              simp only [processField, fieldDecision, hlk, if_neg htr,
                if_neg hii, sideOf, hcv, if_true]
            | str cs =>
              by_cases hni : (normalizeList (jsTrim value)).filter
                  (fun v => ¬ (normalizeList cs).any
                    (fun ex => lc ex = lc v)) = []
              · simp only [processField, fieldDecision, hlk, if_neg htr,
                  if_neg hii, sideOf, hcv, if_pos hni, if_true]
              · simp only [processField, fieldDecision, hlk, if_neg htr,
                  if_neg hii, sideOf, hcv, if_neg hni, if_true]
        | false =>
          by_cases hcond : jsTrim (jsStringOf (jsOr (getByPath
              (detailsOrEmpty project) path))) = "" ∨
              jsTrim (jsStringOf (jsOr (getByPath
                (detailsOrEmpty project) path))) ≠ jsTrim value
          · simp only [processField, fieldDecision, hlk, if_neg htr, sideOf,
              if_pos hcond, if_true, Bool.false_eq_true, if_false]
          · simp only [processField, fieldDecision, hlk, if_neg htr, sideOf,
              if_neg hcond, if_true, Bool.false_eq_true, if_false]
    | feature =>
      by_cases htr : jsTrim value = ""
      · simp [processField, fieldDecision, hlk, htr]
      · cases isl with
        | true =>
          by_cases hii : normalizeList (jsTrim value) = []
          · simp [processField, fieldDecision, hlk, htr, hii]
          · cases hcv : jsOr (getByPath (detailsOrEmpty feature) path) with
            | obj o =>
              simp only [processField, fieldDecision, hlk, if_neg htr,
                if_neg hii, sideOf, hcv, if_true]
            | str cs =>
              by_cases hni : (normalizeList (jsTrim value)).filter
                  (fun v => ¬ (normalizeList cs).any
                    (fun ex => lc ex = lc v)) = []
              · simp only [processField, fieldDecision, hlk, if_neg htr,
                  if_neg hii, sideOf, hcv, if_pos hni, if_true]
              · simp only [processField, fieldDecision, hlk, if_neg htr,
                  if_neg hii, sideOf, hcv, if_neg hni, if_true]
        | false =>
          by_cases hcond : jsTrim (jsStringOf (jsOr (getByPath
              (detailsOrEmpty feature) path))) = "" ∨
              jsTrim (jsStringOf (jsOr (getByPath
                (detailsOrEmpty feature) path))) ≠ jsTrim value
          · simp only [processField, fieldDecision, hlk, if_neg htr, sideOf,
              if_pos hcond, if_true, Bool.false_eq_true, if_false]
          · simp only [processField, fieldDecision, hlk, if_neg htr, sideOf,
              if_neg hcond, if_true, Bool.false_eq_true, if_false]

theorem fieldDecision_shape (project feature : Option JVal)
    (fv : List (String × Option String)) (e : String × FieldMeta)
    (s : Suggestion)
    (h : fieldDecision project feature fv e = some (some s)) :
    s.entity = e.2.entity ∧ s.path = e.2.path := by
  obtain ⟨fieldKey, meta⟩ := e
  obtain ⟨ent, path, lbl, isl⟩ := meta
  cases hlk : lookupFV fv fieldKey with
  | none => simp [fieldDecision, hlk] at h
  | some ov =>
    cases ov with
    | none => simp [fieldDecision, hlk] at h
    | some value =>
      cases ent with
    | project =>
      by_cases htr : jsTrim value = ""
      · simp [fieldDecision, hlk, htr] at h
      · cases isl with
        | true =>
          by_cases hii : normalizeList (jsTrim value) = []
          · simp [fieldDecision, hlk, htr, hii] at h
          · cases hcv : jsOr (getByPath (detailsOrEmpty project) path) with
            | obj o =>
              rw [show fieldDecision project feature fv
                  (fieldKey, ⟨.project, path, lbl, true⟩) = none by
                simp only [fieldDecision, hlk, if_neg htr, if_neg hii,
                  sideOf, hcv, if_true]] at h
              exact absurd h (by simp)
            | str cs =>
              by_cases hni : (normalizeList (jsTrim value)).filter
                  (fun v => ¬ (normalizeList cs).any
                    (fun ex => lc ex = lc v)) = []
              · simp only [fieldDecision, hlk, if_neg htr, if_neg hii,
                  sideOf, hcv, if_pos hni, Option.some.injEq, if_true] at h
                exact absurd h (by simp)
              · simp only [fieldDecision, hlk, if_neg htr, if_neg hii,
                  sideOf, hcv, if_neg hni, Option.some.injEq, if_true] at h
                rw [← h]
                exact ⟨rfl, rfl⟩
        | false =>
          by_cases hcond : jsTrim (jsStringOf (jsOr (getByPath
              (detailsOrEmpty project) path))) = "" ∨
              jsTrim (jsStringOf (jsOr (getByPath
                (detailsOrEmpty project) path))) ≠ jsTrim value
          · simp only [fieldDecision, hlk, if_neg htr, sideOf,
              if_pos hcond, Option.some.injEq, if_true, Bool.false_eq_true, if_false] at h
            rw [← h]
            exact ⟨rfl, rfl⟩
          · simp only [fieldDecision, hlk, if_neg htr, sideOf,
              if_neg hcond, Option.some.injEq, if_true, Bool.false_eq_true, if_false] at h
            exact absurd h (by simp)
    | feature =>
      by_cases htr : jsTrim value = ""
      · simp [fieldDecision, hlk, htr] at h
      · cases isl with
        | true =>
          by_cases hii : normalizeList (jsTrim value) = []
          · simp [fieldDecision, hlk, htr, hii] at h
          · cases hcv : jsOr (getByPath (detailsOrEmpty feature) path) with
            | obj o =>
              rw [show fieldDecision project feature fv
                  (fieldKey, ⟨.feature, path, lbl, true⟩) = none by
                simp only [fieldDecision, hlk, if_neg htr, if_neg hii,
                  sideOf, hcv, if_true]] at h
              exact absurd h (by simp)
            | str cs =>
              by_cases hni : (normalizeList (jsTrim value)).filter
                  (fun v => ¬ (normalizeList cs).any
                    (fun ex => lc ex = lc v)) = []
              · simp only [fieldDecision, hlk, if_neg htr, if_neg hii,
                  sideOf, hcv, if_pos hni, Option.some.injEq, if_true] at h
                exact absurd h (by simp)
              · simp only [fieldDecision, hlk, if_neg htr, if_neg hii,
                  sideOf, hcv, if_neg hni, Option.some.injEq, if_true] at h
                rw [← h]
                exact ⟨rfl, rfl⟩
        | false =>
          by_cases hcond : jsTrim (jsStringOf (jsOr (getByPath
              (detailsOrEmpty feature) path))) = "" ∨
              jsTrim (jsStringOf (jsOr (getByPath
                (detailsOrEmpty feature) path))) ≠ jsTrim value
          · simp only [fieldDecision, hlk, if_neg htr, sideOf,
              if_pos hcond, Option.some.injEq, if_true, Bool.false_eq_true, if_false] at h
            rw [← h]
            exact ⟨rfl, rfl⟩
          · simp only [fieldDecision, hlk, if_neg htr, sideOf,
              if_neg hcond, Option.some.injEq, if_true, Bool.false_eq_true, if_false] at h
            exact absurd h (by simp)

theorem fieldDecision_ne_none (project feature : Option JVal)
    (fv : List (String × Option String)) (e : String × FieldMeta)
    (hstr : e.2.isList = true → ∀ o,
      getByPath (detailsOrEmpty (sideOf project feature e.2.entity))
        e.2.path ≠ some (.obj o)) :
    fieldDecision project feature fv e ≠ none := by
  obtain ⟨fieldKey, meta⟩ := e
  obtain ⟨ent, path, lbl, isl⟩ := meta
  cases hlk : lookupFV fv fieldKey with
  | none => simp [fieldDecision, hlk]
  | some ov =>
    cases ov with
    | none => simp [fieldDecision, hlk]
    | some value =>
      cases ent with
    | project =>
      by_cases htr : jsTrim value = ""
      · simp [fieldDecision, hlk, htr]
      · cases isl with
        | true =>
          by_cases hii : normalizeList (jsTrim value) = []
          · simp [fieldDecision, hlk, htr, hii]
          · cases hcv : jsOr (getByPath (detailsOrEmpty project) path) with
            | obj o =>
              exfalso
              simp only [sideOf] at hstr
              cases hg : getByPath (detailsOrEmpty project) path with
              | none => simp [jsOr, hg] at hcv
              | some v =>
                by_cases hv : truthy v = true
                · simp only [jsOr, hg, if_pos hv] at hcv
                  exact hstr trivial o (hcv ▸ hg)
                · simp [jsOr, hg, if_neg hv] at hcv
            | str cs =>
              by_cases hni : (normalizeList (jsTrim value)).filter
                  (fun v => ¬ (normalizeList cs).any
                    (fun ex => lc ex = lc v)) = []
              · simp only [fieldDecision, hlk, if_neg htr, if_neg hii,
                  sideOf, hcv, if_pos hni, if_true]
                simp
              · simp only [fieldDecision, hlk, if_neg htr, if_neg hii,
                  sideOf, hcv, if_neg hni, if_true]
                simp
        | false =>
          by_cases hcond : jsTrim (jsStringOf (jsOr (getByPath
              (detailsOrEmpty project) path))) = "" ∨
              jsTrim (jsStringOf (jsOr (getByPath
                (detailsOrEmpty project) path))) ≠ jsTrim value
          · simp only [fieldDecision, hlk, if_neg htr, sideOf, if_pos hcond, if_true, Bool.false_eq_true, if_false]
            simp
          · simp only [fieldDecision, hlk, if_neg htr, sideOf, if_neg hcond, if_true, Bool.false_eq_true, if_false]
            simp
    | feature =>
      by_cases htr : jsTrim value = ""
      · simp [fieldDecision, hlk, htr]
      · cases isl with
        | true =>
          by_cases hii : normalizeList (jsTrim value) = []
          · simp [fieldDecision, hlk, htr, hii]
          · cases hcv : jsOr (getByPath (detailsOrEmpty feature) path) with
            | obj o =>
              exfalso
              simp only [sideOf] at hstr
              cases hg : getByPath (detailsOrEmpty feature) path with
              | none => simp [jsOr, hg] at hcv
              | some v =>
                by_cases hv : truthy v = true
                · simp only [jsOr, hg, if_pos hv] at hcv
                  exact hstr trivial o (hcv ▸ hg)
                · simp [jsOr, hg, if_neg hv] at hcv
            | str cs =>
              by_cases hni : (normalizeList (jsTrim value)).filter
                  (fun v => ¬ (normalizeList cs).any
                    (fun ex => lc ex = lc v)) = []
              · simp only [fieldDecision, hlk, if_neg htr, if_neg hii,
                  sideOf, hcv, if_pos hni, if_true]
                simp
              · simp only [fieldDecision, hlk, if_neg htr, if_neg hii,
                  sideOf, hcv, if_neg hni, if_true]
                simp
        | false =>
          by_cases hcond : jsTrim (jsStringOf (jsOr (getByPath
              (detailsOrEmpty feature) path))) = "" ∨
              jsTrim (jsStringOf (jsOr (getByPath
                (detailsOrEmpty feature) path))) ≠ jsTrim value
          · simp only [fieldDecision, hlk, if_neg htr, sideOf, if_pos hcond, if_true, Bool.false_eq_true, if_false]
            simp
          · simp only [fieldDecision, hlk, if_neg htr, sideOf, if_neg hcond, if_true, Bool.false_eq_true, if_false]
            simp

theorem fieldDecision_congr (p1 f1 p2 f2 : Option JVal)
    (fv : List (String × Option String)) (e : String × FieldMeta)
    (h : getByPath (detailsOrEmpty (sideOf p2 f2 e.2.entity)) e.2.path =
      getByPath (detailsOrEmpty (sideOf p1 f1 e.2.entity)) e.2.path) :
    fieldDecision p2 f2 fv e = fieldDecision p1 f1 fv e := by
  obtain ⟨fieldKey, meta⟩ := e
  obtain ⟨ent, path, lbl, isl⟩ := meta
  cases hlk : lookupFV fv fieldKey with
  | none => simp [fieldDecision, hlk]
  | some ov =>
    cases ov with
    | none => simp [fieldDecision, hlk]
    | some value =>
      cases ent with
      | project =>
        simp only [sideOf] at h
        simp only [fieldDecision, hlk, sideOf, h]
      | feature =>
        simp only [sideOf] at h
        simp only [fieldDecision, hlk, sideOf, h]

theorem deriveGo_all_skip (project feature : Option JVal)
    (fv : List (String × Option String)) :
    ∀ (map : List (String × FieldMeta)) (st : DeriveState),
    (∀ e ∈ map, fieldDecision project feature fv e = some none) →
    deriveGo project feature fv st map = some st := by
  intro map
  induction map with
  | nil => intro st _; rfl
  | cons e rest ih =>
    intro st h
    have hd := h e (List.mem_cons_self e rest)
    simp only [deriveGo, processField_eq, hd]
    exact ih st (fun e' he' => h e' (List.mem_cons_of_mem e he'))

theorem deriveGo_char (project feature : Option JVal)
    (fv : List (String × Option String)) :
    ∀ (map : List (String × FieldMeta)) (st : DeriveState),
    (∀ e ∈ map, fieldDecision project feature fv e ≠ none) →
    (∀ e ∈ map, e.2.path ≠ "") →
    (∀ e ∈ map, ew (updatesFor st e.2.entity) (segs e.2.path) = true) →
    map.Pairwise (fun a b => a.2.entity = b.2.entity →
      isSegPre (segs a.2.path) (segs b.2.path) = false ∧
      isSegPre (segs b.2.path) (segs a.2.path) = false) →
    ∃ st', deriveGo project feature fv st map = some st' ∧
      st'.suggestions = st.suggestions ++
        map.filterMap (fun e => (fieldDecision project feature fv e).join) := by
  intro map
  induction map with
  | nil => intro st _ _ _ _; exact ⟨st, rfl, by simp⟩
  | cons e rest ih =>
    intro st hd hne hew hpw
    rcases hpw with _ | ⟨hhead, htail⟩
    cases hdec : fieldDecision project feature fv e with
    | none => exact absurd hdec (hd e (List.mem_cons_self e rest))
    | some o =>
      cases o with
      | none =>
        obtain ⟨st', hgo, hsug⟩ := ih st
          (fun e' h => hd e' (List.mem_cons_of_mem e h))
          (fun e' h => hne e' (List.mem_cons_of_mem e h))
          (fun e' h => hew e' (List.mem_cons_of_mem e h)) htail
        refine ⟨st', ?_, ?_⟩
        · simp only [deriveGo, processField_eq, hdec]
          exact hgo
        · simp [List.filterMap_cons, hdec, hsug]
      | some s =>
        obtain ⟨hent, hpath⟩ := fieldDecision_shape project feature fv e s hdec
        have hewe := hew e (List.mem_cons_self e rest)
        obtain ⟨uo, huo⟩ := ew_obj _ _ hewe
        obtain ⟨u, hu, hug⟩ := ew_set_get (segs e.2.path)
          (updatesFor st e.2.entity) (.str s.newValue) hewe
        have hsbp : setByPath (updatesFor st e.2.entity) e.2.path
            (.str s.newValue) = some u := by
          rw [huo, setByPath_obj uo e.2.path _
            (hne e (List.mem_cons_self e rest)), ← huo]
          exact hu
        rw [← hent, ← hpath] at hsbp
        cases hse : s.entity with
        | project =>
          rw [hse] at hsbp
          have hsbp' : setByPath st.projectUpdates s.path
              (.str s.newValue) = some u := hsbp
          have hewnext : ∀ e' ∈ rest,
              ew (updatesFor ⟨u, st.featureUpdates, st.suggestions ++ [s]⟩
                e'.2.entity) (segs e'.2.path) = true := by
            intro e' h
            cases hech : e'.2.entity with
            | feature =>
              show ew st.featureUpdates (segs e'.2.path) = true
              have := hew e' (List.mem_cons_of_mem e h)
              rw [hech] at this
              exact this
            | project =>
              show ew u (segs e'.2.path) = true
              have hcond := hhead e' h (by rw [← hent, hse, hech])
              have hprev := hew e' (List.mem_cons_of_mem e h)
              rw [hech] at hprev
              have hewp : ew (updatesFor st EntityKind.project)
                  (segs e'.2.path) = true := hprev
              refine setSegs_ew_pres (segs e'.2.path)
                (updatesFor st EntityKind.project) u (.str s.newValue)
                (segs e.2.path) ?_ hewp (Or.inr hcond.1)
              have h2 := hu
              rw [← hent, hse] at h2
              exact h2
          obtain ⟨st', hgo, hsug⟩ := ih ⟨u, st.featureUpdates,
            st.suggestions ++ [s]⟩
            (fun e' h => hd e' (List.mem_cons_of_mem e h))
            (fun e' h => hne e' (List.mem_cons_of_mem e h))
            hewnext htail
          refine ⟨st', ?_, ?_⟩
          · simp only [deriveGo, processField_eq, hdec, hse, hsbp',
              Option.map_some']
            exact hgo
          · rw [hsug]
            simp [List.filterMap_cons, hdec, Option.join, List.append_assoc]
        | feature =>
          rw [hse] at hsbp
          have hsbp' : setByPath st.featureUpdates s.path
              (.str s.newValue) = some u := hsbp
          have hewnext : ∀ e' ∈ rest,
              ew (updatesFor ⟨st.projectUpdates, u, st.suggestions ++ [s]⟩
                e'.2.entity) (segs e'.2.path) = true := by
            intro e' h
            cases hech : e'.2.entity with
            | project =>
              show ew st.projectUpdates (segs e'.2.path) = true
              have := hew e' (List.mem_cons_of_mem e h)
              rw [hech] at this
              exact this
            | feature =>
              show ew u (segs e'.2.path) = true
              have hcond := hhead e' h (by rw [← hent, hse, hech])
              have hprev := hew e' (List.mem_cons_of_mem e h)
              rw [hech] at hprev
              have hewf : ew (updatesFor st EntityKind.feature)
                  (segs e'.2.path) = true := hprev
              refine setSegs_ew_pres (segs e'.2.path)
                (updatesFor st EntityKind.feature) u (.str s.newValue)
                (segs e.2.path) ?_ hewf (Or.inr hcond.1)
              have h2 := hu
              rw [← hent, hse] at h2
              exact h2
          obtain ⟨st', hgo, hsug⟩ := ih ⟨st.projectUpdates, u,
            st.suggestions ++ [s]⟩
            (fun e' h => hd e' (List.mem_cons_of_mem e h))
            (fun e' h => hne e' (List.mem_cons_of_mem e h))
            hewnext htail
          refine ⟨st', ?_, ?_⟩
          · simp only [deriveGo, processField_eq, hdec, hse, hsbp',
              Option.map_some']
            exact hgo
          · rw [hsug]
            simp [List.filterMap_cons, hdec, Option.join, List.append_assoc]

theorem persistGo_obj : ∀ (pairs : List (String × String))
    (o : List (String × JVal)) (d' : JVal),
    persistGo (.obj o) pairs = some d' → ∃ o', d' = .obj o' := by
  intro pairs
  induction pairs with
  | nil =>
    intro o d' h
    exact ⟨o, by simpa [persistGo] using h.symm⟩
  | cons pr rest ih =>
    obtain ⟨p, v⟩ := pr
    intro o d' h
    simp only [persistGo] at h
    cases hsb : setByPath (.obj o) p (.str v) with
    | none => rw [hsb] at h; simp at h
    | some d1 =>
      rw [hsb] at h
      have hobj : ∃ o1, d1 = .obj o1 := by
        simp only [setByPath] at hsb
        by_cases hg : ¬ truthy (JVal.obj o) = true ∨ p = ""
        · rw [if_pos hg] at hsb
          exact ⟨o, by simpa using hsb.symm⟩
        · rw [if_neg hg] at hsb
          exact setSegs_obj o (segs p) _ d1 hsb
      obtain ⟨o1, rfl⟩ := hobj
      exact ih o1 d' h

theorem persistGo_char : ∀ (pairs : List (String × String)) (d : JVal),
    (∀ pr ∈ pairs, pr.1 ≠ "") →
    (∀ pr ∈ pairs, ew d (segs pr.1) = true) →
    pairs.Pairwise (fun a b => isSegPre (segs a.1) (segs b.1) = false ∧
      isSegPre (segs b.1) (segs a.1) = false) →
    ∃ d', persistGo d pairs = some d' ∧
      (∀ pr ∈ pairs, getByPath d' pr.1 = some (.str pr.2)) ∧
      (∀ q : String, q ≠ "" →
        (∀ pr ∈ pairs, isSegPre (segs pr.1) (segs q) = false ∧
          isSegPre (segs q) (segs pr.1) = false) →
        getByPath d' q = getByPath d q) := by
  intro pairs
  induction pairs with
  | nil =>
    intro d _ _ _
    exact ⟨d, rfl, by simp, fun q _ _ => rfl⟩
  | cons pr rest ih =>
    obtain ⟨p, v⟩ := pr
    intro d hne hew hpw
    rcases hpw with _ | ⟨hhead, htail⟩
    have hewp := hew (p, v) (List.mem_cons_self _ rest)
    obtain ⟨o, rfl⟩ := ew_obj _ _ hewp
    obtain ⟨d1, hset, hget⟩ := ew_set_get (segs p) (.obj o) (.str v) hewp
    have hpne : p ≠ "" := hne (p, v) (List.mem_cons_self _ rest)
    have hsb : setByPath (.obj o) p (.str v) = some d1 := by
      rw [setByPath_obj o p _ hpne]
      exact hset
    obtain ⟨o1, rfl⟩ := setSegs_obj o (segs p) _ d1 hset
    have hewrest : ∀ pr ∈ rest, ew (.obj o1) (segs pr.1) = true := by
      intro pr h
      exact setSegs_ew_pres (segs pr.1) (.obj o) (.obj o1) (.str v) (segs p)
        hset (hew pr (List.mem_cons_of_mem _ h)) (Or.inr (hhead pr h).1)
    obtain ⟨d', hgo, hwrit, hframe⟩ := ih (.obj o1)
      (fun pr h => hne pr (List.mem_cons_of_mem _ h)) hewrest htail
    refine ⟨d', ?_, ?_, ?_⟩
    · simp only [persistGo, hsb]
      exact hgo
    · intro pr h
      rcases List.mem_cons.mp h with h1 | h2
      · cases h1
        have hfr := hframe p hpne
          (fun pr' h' => ⟨(hhead pr' h').2, (hhead pr' h').1⟩)
        rw [hfr, getByPath_obj o1 p hpne]
        exact hget
      · exact hwrit pr h2
    · intro q hq hcond
      have h1 := hframe q hq
        (fun pr h => hcond pr (List.mem_cons_of_mem _ h))
      rw [h1, getByPath_obj o1 q hq, getByPath_obj o q hq]
      exact setSegs_frame (segs p) (.obj o) (.obj o1) (.str v) (segs q) hset
        (hcond (p, v) (List.mem_cons_self _ rest)).1
        (hcond (p, v) (List.mem_cons_self _ rest)).2

/-- After a list merge is persisted, re-filtering the same incoming items
against the merged list keeps nothing: every incoming item now has a
case-insensitive match in the stored list. -/
theorem second_filter_nil (cs : String) (incoming : List String)
    (hinc : ∀ v ∈ incoming, v ≠ "" ∧ trimChars v.data = v.data ∧
      ∀ c ∈ v.data, isDelim c = false) :
    incoming.filter (fun v => ¬ (normalizeList (mergeList cs
      (incoming.filter (fun v => ¬ (normalizeList cs).any
        (fun ex => lc ex = lc v))))).any (fun ex => lc ex = lc v)) = [] := by
  set newItems := incoming.filter (fun v => ¬ (normalizeList cs).any
    (fun ex => lc ex = lc v)) with hnew
  have hdelim : ∀ w ∈ newItems, ∀ c ∈ w.data, isDelim c = false := by
    intro w hw
    exact (hinc w (List.mem_of_mem_filter hw)).2.2
  have hround : normalizeList (mergeList cs newItems) =
      normalizeList cs ++ keepNew ((normalizeList cs).map lc) newItems := by
    rw [mergeList_eq]
    exact normalizeList_join _ (merged_items_ok cs newItems hdelim)
  rw [List.filter_eq_nil_iff]
  intro v hv
  obtain ⟨hvne, hvtrim, _⟩ := hinc v hv
  have hjv : jsTrim v = v := by
    show (⟨trimChars v.data⟩ : String) = v
    rw [hvtrim, mk_data]
  simp only [hround, decide_not, Bool.not_eq_true', Bool.not_eq_false,
    List.any_eq_true, decide_eq_true_eq]
  by_cases hin : ∃ ex ∈ normalizeList cs, lc ex = lc v
  · obtain ⟨ex, hex, hlex⟩ := hin
    exact ⟨ex, List.mem_append.mpr (Or.inl hex), hlex⟩
  · have hvnew : v ∈ newItems := by
      rw [hnew]
      refine List.mem_filter.mpr ⟨hv, ?_⟩
      simp only [decide_not, Bool.not_eq_true', Bool.not_eq_false,
        List.any_eq_true, decide_eq_true_eq]
      simpa using hin
    have htne : jsTrim v ≠ "" := by rw [hjv]; exact hvne
    rcases keepNew_complete newItems ((normalizeList cs).map lc) v hvnew
      hvne htne with hmem | ⟨x, hx, hlx⟩
    · exfalso
      have := (member_iff _ _).mp hmem
      rw [hjv] at this
      obtain ⟨ex, hex, hlex⟩ := List.mem_map.mp this
      exact hin ⟨ex, hex, hlex⟩
    · rw [hjv] at hlx
      exact ⟨x, List.mem_append.mpr (Or.inr hx), hlx⟩

/-- Once a field's suggested value has been persisted at its path, the
same submitted value is a no-op for that field on the next run. -/
theorem decision_after_write (project feature : Option JVal)
    (fv : List (String × Option String)) (e : String × FieldMeta)
    (s : Suggestion) (p2 f2 : Option JVal)
    (h1 : fieldDecision project feature fv e = some (some s))
    (hcur : getByPath (detailsOrEmpty (sideOf p2 f2 e.2.entity)) e.2.path =
      some (.str s.newValue)) :
    fieldDecision p2 f2 fv e = some none := by
  obtain ⟨fieldKey, meta⟩ := e
  obtain ⟨ent, path, lbl, isl⟩ := meta
  cases hlk : lookupFV fv fieldKey with
  | none => simp [fieldDecision, hlk] at h1
  | some ov =>
    cases ov with
    | none => simp [fieldDecision, hlk] at h1
    | some value =>
      by_cases htr : jsTrim value = ""
      · simp [fieldDecision, hlk, htr] at h1
      · cases ent with
      | project =>
        cases isl with
        | true =>
          by_cases hii : normalizeList (jsTrim value) = []
          · simp [fieldDecision, hlk, htr, hii] at h1
          · cases hcv : jsOr (getByPath (detailsOrEmpty project) path) with
            | obj o =>
              rw [show fieldDecision project feature fv
                  (fieldKey, ⟨.project, path, lbl, true⟩) = none by
                simp only [fieldDecision, hlk, if_neg htr, if_neg hii,
                  sideOf, hcv, if_true]] at h1
              exact absurd h1 (by simp)
            | str cs =>
              by_cases hni : (normalizeList (jsTrim value)).filter
                  (fun v => ¬ (normalizeList cs).any
                    (fun ex => lc ex = lc v)) = []
              · simp only [fieldDecision, hlk, if_neg htr, if_neg hii,
                  sideOf, hcv, if_pos hni, if_true, Option.some.injEq] at h1
                exact absurd h1 (by simp)
              · simp only [fieldDecision, hlk, if_neg htr, if_neg hii,
                  sideOf, hcv, if_neg hni, if_true, Option.some.injEq] at h1
                subst h1
                simp only [sideOf] at hcur
                have hall := second_filter_nil cs (normalizeList (jsTrim value))
                  (fun v hv => normalizeList_mem (jsTrim value) v hv)
                simp only [fieldDecision, hlk, if_neg htr, if_neg hii,
                  sideOf, hcur, jsOr_str, if_true]
                rw [if_pos hall]
        | false =>
          by_cases hcond : jsTrim (jsStringOf (jsOr (getByPath
              (detailsOrEmpty project) path))) = "" ∨
              jsTrim (jsStringOf (jsOr (getByPath
                (detailsOrEmpty project) path))) ≠ jsTrim value
          · simp only [fieldDecision, hlk, if_neg htr, sideOf,
              Bool.false_eq_true, if_false, if_pos hcond,
              Option.some.injEq] at h1
            subst h1
            simp only [sideOf] at hcur
            have hc2 : ¬ (jsTrim (jsStringOf (JVal.str (jsTrim value))) = ""
                ∨ jsTrim (jsStringOf (JVal.str (jsTrim value))) ≠
                  jsTrim value) := by
              simp [jsStringOf, jsTrim_jsTrim, htr]
            simp only [fieldDecision, hlk, if_neg htr, sideOf,
              Bool.false_eq_true, if_false, hcur, jsOr_str, if_neg hc2]
          · simp only [fieldDecision, hlk, if_neg htr, sideOf,
              Bool.false_eq_true, if_false, if_neg hcond,
              Option.some.injEq] at h1
            exact absurd h1 (by simp)
      | feature =>
        cases isl with
        | true =>
          by_cases hii : normalizeList (jsTrim value) = []
          · simp [fieldDecision, hlk, htr, hii] at h1
          · cases hcv : jsOr (getByPath (detailsOrEmpty feature) path) with
            | obj o =>
              rw [show fieldDecision project feature fv
                  (fieldKey, ⟨.feature, path, lbl, true⟩) = none by
                simp only [fieldDecision, hlk, if_neg htr, if_neg hii,
                  sideOf, hcv, if_true]] at h1
              exact absurd h1 (by simp)
            | str cs =>
              by_cases hni : (normalizeList (jsTrim value)).filter
                  (fun v => ¬ (normalizeList cs).any
                    (fun ex => lc ex = lc v)) = []
              · simp only [fieldDecision, hlk, if_neg htr, if_neg hii,
                  sideOf, hcv, if_pos hni, if_true, Option.some.injEq] at h1
                exact absurd h1 (by simp)
              · simp only [fieldDecision, hlk, if_neg htr, if_neg hii,
                  sideOf, hcv, if_neg hni, if_true, Option.some.injEq] at h1
                subst h1
                simp only [sideOf] at hcur
                have hall := second_filter_nil cs (normalizeList (jsTrim value))
                  (fun v hv => normalizeList_mem (jsTrim value) v hv)
                simp only [fieldDecision, hlk, if_neg htr, if_neg hii,
                  sideOf, hcur, jsOr_str, if_true]
                rw [if_pos hall]
        | false =>
          by_cases hcond : jsTrim (jsStringOf (jsOr (getByPath
              (detailsOrEmpty feature) path))) = "" ∨
              jsTrim (jsStringOf (jsOr (getByPath
                (detailsOrEmpty feature) path))) ≠ jsTrim value
          · simp only [fieldDecision, hlk, if_neg htr, sideOf,
              Bool.false_eq_true, if_false, if_pos hcond,
              Option.some.injEq] at h1
            subst h1
            simp only [sideOf] at hcur
            have hc2 : ¬ (jsTrim (jsStringOf (JVal.str (jsTrim value))) = ""
                ∨ jsTrim (jsStringOf (JVal.str (jsTrim value))) ≠
                  jsTrim value) := by
              simp [jsStringOf, jsTrim_jsTrim, htr]
            simp only [fieldDecision, hlk, if_neg htr, sideOf,
              Bool.false_eq_true, if_false, hcur, jsOr_str, if_neg hc2]
          · simp only [fieldDecision, hlk, if_neg htr, sideOf,
              Bool.false_eq_true, if_false, if_neg hcond,
              Option.some.injEq] at h1
            exact absurd h1 (by simp)


/-! ### C1: idempotence of the forward mapping -/

/-- `okStored x = true` rules out a stored object at the path. -/
theorem okStored_no_obj (x : Option JVal) (h : okStored x = true)
    (o : List (String × JVal)) : x ≠ some (.obj o) := by
  intro hx
  rw [hx] at h
  simp [okStored] at h

/-- The same-entity non-overlap relation on map entries is symmetric. -/
theorem entRel_symm :
    Symmetric (fun a b : String × FieldMeta =>
      a.2.entity = b.2.entity →
      isSegPre (segs a.2.path) (segs b.2.path) = false ∧
      isSegPre (segs b.2.path) (segs a.2.path) = false) := by
  intro a b hab hba
  obtain ⟨h1, h2⟩ := hab hba.symm
  exact ⟨h2, h1⟩

/-- Unfold membership in `suggPairs`. -/
theorem suggPairs_mem (ent : EntityKind) (suggs : List Suggestion)
    (pr : String × String) (h : pr ∈ suggPairs ent suggs) :
    ∃ s ∈ suggs, s.entity = ent ∧ pr = (s.path, s.newValue) := by
  simp only [suggPairs, List.mem_map, List.mem_filter,
    decide_eq_true_eq] at h
  obtain ⟨s, ⟨hs, hsent⟩, hpr⟩ := h
  exact ⟨s, hs, hsent, hpr.symm⟩

/-- Introduce membership in `suggPairs`. -/
theorem suggPairs_mem_intro (ent : EntityKind) (suggs : List Suggestion)
    (s : Suggestion) (hs : s ∈ suggs) (hent : s.entity = ent) :
    (s.path, s.newValue) ∈ suggPairs ent suggs := by
  simp only [suggPairs, List.mem_map, List.mem_filter, decide_eq_true_eq]
  exact ⟨s, ⟨hs, hent⟩, rfl⟩

/-- **C1** (amended).  The spec claims forward mapping is idempotent for
*every* map; the source breaks this when two map entries of the same
entity write to the same (or a nested) path, as `discovery` does with
`business-objectives` and `success-metrics` both targeting
`general.goals` (see `C1_counterexample`).  Under the amended
hypotheses — every path non-empty, same-entity paths segment-prefix-free
of one another, every path effectively writable in the entity's stored
details, and no object stored at a list field's path — the first run
succeeds, persisting its suggestions succeeds, and re-running
`deriveProjectUpdates` on the same raw form values against the persisted
state yields no suggestions and pristine `{ general: {} }` payloads. -/
theorem C1_idempotent (project feature : Option JVal)
    (map : List (String × FieldMeta)) (fv : List (String × Option String))
    (hne : ∀ e ∈ map, e.2.path ≠ "")
    (hpw : map.Pairwise (fun a b => a.2.entity = b.2.entity →
      isSegPre (segs a.2.path) (segs b.2.path) = false ∧
      isSegPre (segs b.2.path) (segs a.2.path) = false))
    (hew : ∀ e ∈ map,
      ew (detailsOrEmpty (sideOf project feature e.2.entity))
        (segs e.2.path) = true)
    (hstr : ∀ e ∈ map, e.2.isList = true →
      okStored (getByPath
        (detailsOrEmpty (sideOf project feature e.2.entity)) e.2.path)
        = true) :
    ∃ out, deriveProjectUpdates project feature map fv = some out ∧
      ∃ pd fd,
        persistGo (detailsOrEmpty project)
          (suggPairs .project out.suggestions) = some pd ∧
        persistGo (detailsOrEmpty feature)
          (suggPairs .feature out.suggestions) = some fd ∧
        deriveProjectUpdates (some pd) (some fd) map fv =
          some ⟨emptyGeneral, emptyGeneral, []⟩ := by
  have hd : ∀ e ∈ map, fieldDecision project feature fv e ≠ none := by
    intro e he
    exact fieldDecision_ne_none project feature fv e
      (fun hil o => okStored_no_obj _ (hstr e he hil) o)
  have hewinit : ∀ e ∈ map,
      ew (updatesFor ⟨emptyGeneral, emptyGeneral, []⟩ e.2.entity)
        (segs e.2.path) = true := by
    intro e _
    cases e.2.entity <;>
      exact ew_emptyGeneral (segs e.2.path) (segs_ne_nil e.2.path)
  obtain ⟨out, hder, hsugg⟩ :=
    deriveGo_char project feature fv map ⟨emptyGeneral, emptyGeneral, []⟩
      hd hne hewinit hpw
  have hsugg2 : out.suggestions =
      map.filterMap (fun e => (fieldDecision project feature fv e).join) := by
    simpa using hsugg
  have hsfrom : ∀ s ∈ out.suggestions,
      ∃ e ∈ map, fieldDecision project feature fv e = some (some s) := by
    intro s hs
    rw [hsugg2] at hs
    obtain ⟨e, he, hfe⟩ := List.mem_filterMap.mp hs
    exact ⟨e, he, Option.join_eq_some.mp hfe⟩
  have hspw : out.suggestions.Pairwise (fun a b => a.entity = b.entity →
      isSegPre (segs a.path) (segs b.path) = false ∧
      isSegPre (segs b.path) (segs a.path) = false) := by
    rw [hsugg2, List.pairwise_filterMap]
    refine hpw.imp ?_
    intro a b hab s hs s' hs'
    rw [Option.mem_def] at hs hs'
    have hda := Option.join_eq_some.mp hs
    have hdb := Option.join_eq_some.mp hs'
    obtain ⟨hae, hap⟩ := fieldDecision_shape project feature fv a s hda
    obtain ⟨hbe, hbp⟩ := fieldDecision_shape project feature fv b s' hdb
    intro hent
    rw [hae, hbe] at hent
    obtain ⟨h1, h2⟩ := hab hent
    rw [hap, hbp]
    exact ⟨h1, h2⟩
  have hper : ∀ ent : EntityKind,
      (∀ pr ∈ suggPairs ent out.suggestions, pr.1 ≠ "") ∧
      (∀ pr ∈ suggPairs ent out.suggestions,
        ew (detailsOrEmpty (sideOf project feature ent))
          (segs pr.1) = true) ∧
      (suggPairs ent out.suggestions).Pairwise (fun a b =>
        isSegPre (segs a.1) (segs b.1) = false ∧
        isSegPre (segs b.1) (segs a.1) = false) := by
    intro ent
    refine ⟨?_, ?_, ?_⟩
    · intro pr hpr
      obtain ⟨s, hs, hsent, hpreq⟩ := suggPairs_mem ent out.suggestions pr hpr
      obtain ⟨e, he, hde⟩ := hsfrom s hs
      obtain ⟨_, hsp⟩ := fieldDecision_shape project feature fv e s hde
      rw [hpreq]
      show s.path ≠ ""
      rw [hsp]
      exact hne e he
    · intro pr hpr
      obtain ⟨s, hs, hsent, hpreq⟩ := suggPairs_mem ent out.suggestions pr hpr
      obtain ⟨e, he, hde⟩ := hsfrom s hs
      obtain ⟨hse, hsp⟩ := fieldDecision_shape project feature fv e s hde
      rw [hpreq]
      show ew (detailsOrEmpty (sideOf project feature ent))
        (segs s.path) = true
      rw [hsp, ← hsent, hse]
      exact hew e he
    · have hf : (out.suggestions.filter
          fun s => decide (s.entity = ent)).Pairwise
          (fun a b => a.entity = b.entity →
            isSegPre (segs a.path) (segs b.path) = false ∧
            isSegPre (segs b.path) (segs a.path) = false) :=
        hspw.sublist (List.filter_sublist _)
      simp only [suggPairs]
      rw [List.pairwise_map]
      refine List.Pairwise.imp_of_mem ?_ hf
      intro a b ha hb hab
      have hae : a.entity = ent := of_decide_eq_true (List.mem_filter.mp ha).2
      have hbe : b.entity = ent := of_decide_eq_true (List.mem_filter.mp hb).2
      exact hab (hae.trans hbe.symm)
  obtain ⟨hp1, hp2, hp3⟩ := hper .project
  obtain ⟨hq1, hq2, hq3⟩ := hper .feature
  obtain ⟨pd, hpdq, hpdw, hpdfr⟩ :=
    persistGo_char (suggPairs .project out.suggestions)
      (detailsOrEmpty project) hp1 hp2 hp3
  obtain ⟨fd, hfdq, hfdw, hfdfr⟩ :=
    persistGo_char (suggPairs .feature out.suggestions)
      (detailsOrEmpty feature) hq1 hq2 hq3
  refine ⟨out, hder, pd, fd, hpdq, hfdq, ?_⟩
  show deriveGo (some pd) (some fd) fv ⟨emptyGeneral, emptyGeneral, []⟩ map =
    some ⟨emptyGeneral, emptyGeneral, []⟩
  apply deriveGo_all_skip
  intro e he
  cases hech : e.2.entity with
  | project =>
    have hewp : ew (detailsOrEmpty project) (segs e.2.path) = true := by
      have hh := hew e he
      rw [hech] at hh
      exact hh
    obtain ⟨o0, ho0⟩ := ew_obj _ _ hewp
    have hpd' := hpdq
    rw [ho0] at hpd'
    obtain ⟨opd, hopd⟩ := persistGo_obj _ _ _ hpd'
    have hde : detailsOrEmpty (some pd) = pd := by
      rw [hopd]
      rfl
    cases hdec : fieldDecision project feature fv e with
    | none => exact absurd hdec (hd e he)
    | some o =>
      cases o with
      | none =>
        have hfr : getByPath pd e.2.path =
            getByPath (detailsOrEmpty project) e.2.path := by
          refine hpdfr e.2.path (hne e he) ?_
          intro pr hpr
          obtain ⟨s, hs, hsent, hpreq⟩ := suggPairs_mem _ _ pr hpr
          obtain ⟨e', he', hde'⟩ := hsfrom s hs
          obtain ⟨hse', hsp'⟩ :=
            fieldDecision_shape project feature fv e' s hde'
          have hnee : e' ≠ e := by
            intro hcontra
            rw [hcontra, hdec] at hde'
            simp at hde'
          have hR := hpw.forall entRel_symm he' he hnee
          have hent' : e'.2.entity = e.2.entity := by
            rw [← hse', hsent, hech]
          obtain ⟨n1, n2⟩ := hR hent'
          rw [hpreq]
          show isSegPre (segs s.path) (segs e.2.path) = false ∧
            isSegPre (segs e.2.path) (segs s.path) = false
          rw [hsp']
          exact ⟨n1, n2⟩
        have hcongr : getByPath
            (detailsOrEmpty (sideOf (some pd) (some fd) e.2.entity))
              e.2.path =
            getByPath (detailsOrEmpty (sideOf project feature e.2.entity))
              e.2.path := by
          rw [hech]
          show getByPath (detailsOrEmpty (some pd)) e.2.path =
            getByPath (detailsOrEmpty project) e.2.path
          rw [hde]
          exact hfr
        exact (fieldDecision_congr project feature (some pd) (some fd) fv e
          hcongr).trans hdec
      | some s =>
        obtain ⟨hse, hsp⟩ := fieldDecision_shape project feature fv e s hdec
        have hsmem : s ∈ out.suggestions := by
          rw [hsugg2]
          exact List.mem_filterMap.mpr ⟨e, he, by rw [hdec]; rfl⟩
        have hprmem : (s.path, s.newValue) ∈
            suggPairs .project out.suggestions :=
          suggPairs_mem_intro _ _ s hsmem (by rw [hse]; exact hech)
        have hwrit := hpdw _ hprmem
        have hcur : getByPath
            (detailsOrEmpty (sideOf (some pd) (some fd) e.2.entity))
              e.2.path = some (.str s.newValue) := by
          rw [hech]
          show getByPath (detailsOrEmpty (some pd)) e.2.path =
            some (.str s.newValue)
          rw [hde, ← hsp]
          exact hwrit
        exact decision_after_write project feature fv e s (some pd) (some fd)
          hdec hcur
  | feature =>
    have hewp : ew (detailsOrEmpty feature) (segs e.2.path) = true := by
      have hh := hew e he
      rw [hech] at hh
      exact hh
    obtain ⟨o0, ho0⟩ := ew_obj _ _ hewp
    have hpd' := hfdq
    rw [ho0] at hpd'
    obtain ⟨opd, hopd⟩ := persistGo_obj _ _ _ hpd'
    have hde : detailsOrEmpty (some fd) = fd := by
      rw [hopd]
      rfl
    cases hdec : fieldDecision project feature fv e with
    | none => exact absurd hdec (hd e he)
    | some o =>
      cases o with
      | none =>
        have hfr : getByPath fd e.2.path =
            getByPath (detailsOrEmpty feature) e.2.path := by
          refine hfdfr e.2.path (hne e he) ?_
          intro pr hpr
          obtain ⟨s, hs, hsent, hpreq⟩ := suggPairs_mem _ _ pr hpr
          obtain ⟨e', he', hde'⟩ := hsfrom s hs
          obtain ⟨hse', hsp'⟩ :=
            fieldDecision_shape project feature fv e' s hde'
          have hnee : e' ≠ e := by
            intro hcontra
            rw [hcontra, hdec] at hde'
            simp at hde'
          have hR := hpw.forall entRel_symm he' he hnee
          have hent' : e'.2.entity = e.2.entity := by
            rw [← hse', hsent, hech]
          obtain ⟨n1, n2⟩ := hR hent'
          rw [hpreq]
          show isSegPre (segs s.path) (segs e.2.path) = false ∧
            isSegPre (segs e.2.path) (segs s.path) = false
          rw [hsp']
          exact ⟨n1, n2⟩
        have hcongr : getByPath
            (detailsOrEmpty (sideOf (some pd) (some fd) e.2.entity))
              e.2.path =
            getByPath (detailsOrEmpty (sideOf project feature e.2.entity))
              e.2.path := by
          rw [hech]
          show getByPath (detailsOrEmpty (some fd)) e.2.path =
            getByPath (detailsOrEmpty feature) e.2.path
          rw [hde]
          exact hfr
        exact (fieldDecision_congr project feature (some pd) (some fd) fv e
          hcongr).trans hdec
      | some s =>
        obtain ⟨hse, hsp⟩ := fieldDecision_shape project feature fv e s hdec
        have hsmem : s ∈ out.suggestions := by
          rw [hsugg2]
          exact List.mem_filterMap.mpr ⟨e, he, by rw [hdec]; rfl⟩
        have hprmem : (s.path, s.newValue) ∈
            suggPairs .feature out.suggestions :=
          suggPairs_mem_intro _ _ s hsmem (by rw [hse]; exact hech)
        have hwrit := hfdw _ hprmem
        have hcur : getByPath
            (detailsOrEmpty (sideOf (some pd) (some fd) e.2.entity))
              e.2.path = some (.str s.newValue) := by
          rw [hech]
          show getByPath (detailsOrEmpty (some fd)) e.2.path =
            some (.str s.newValue)
          rw [hde, ← hsp]
          exact hwrit
        exact decision_after_write project feature fv e s (some pd) (some fd)
          hdec hcur


/-- **C1** counterexample.  On the source's own `discovery` map,
`business-objectives` and `success-metrics` both target
`general.goals`; submitting distinct values for them against empty
records, persisting the first run's suggestions and re-running with the
same raw form values re-emits a suggestion (the stored goal now holds
the later write, so the earlier field sees a difference again) — the
spec's unconditional idempotence claim fails. -/
theorem C1_counterexample :
    ((deriveProjectUpdates none none discoveryMap
        [("business-objectives", some "A"),
         ("success-metrics", some "B")]).bind
      (fun out =>
        (persistGo (detailsOrEmpty none)
            (suggPairs .project out.suggestions)).bind
          (fun pd =>
            (persistGo (detailsOrEmpty none)
                (suggPairs .feature out.suggestions)).bind
              (fun fd =>
                deriveProjectUpdates (some pd) (some fd) discoveryMap
                  [("business-objectives", some "A"),
                   ("success-metrics", some "B")])))).map
      (fun out2 => decide (out2.suggestions = [])) = some false := by
  decide

/-- Witness for `C1_idempotent` at a concrete collision-free map. -/
theorem C1_witness :
    ∃ out, deriveProjectUpdates none none
        [("stakeholders",
           ⟨.project, "general.stakeholders", "Stakeholders", true⟩),
         ("featureSize", ⟨.feature, "general.tShirtSize", "Feature size",
           false⟩)]
        [("stakeholders", some "Bob"), ("featureSize", some "M")]
        = some out ∧
      ∃ pd fd,
        persistGo (detailsOrEmpty none)
          (suggPairs .project out.suggestions) = some pd ∧
        persistGo (detailsOrEmpty none)
          (suggPairs .feature out.suggestions) = some fd ∧
        deriveProjectUpdates (some pd) (some fd)
          [("stakeholders",
             ⟨.project, "general.stakeholders", "Stakeholders", true⟩),
           ("featureSize", ⟨.feature, "general.tShirtSize", "Feature size",
             false⟩)]
          [("stakeholders", some "Bob"), ("featureSize", some "M")] =
          some ⟨emptyGeneral, emptyGeneral, []⟩ :=
  C1_idempotent none none
    [("stakeholders",
       ⟨.project, "general.stakeholders", "Stakeholders", true⟩),
     ("featureSize", ⟨.feature, "general.tShirtSize", "Feature size",
       false⟩)]
    [("stakeholders", some "Bob"), ("featureSize", some "M")]
    (by decide) (by decide) (by decide) (by decide)


/-! ### C7: degradation on absent records -/

/-- `getByPath` on the empty object always misses. -/
theorem getByPath_emptyObj (p : String) : getByPath (.obj []) p = none := by
  by_cases hp : p = ""
  · simp [getByPath, hp]
  · rw [getByPath, if_neg (by simp [hp, truthy])]
    obtain ⟨k, rest, hsegs⟩ : ∃ k rest, segs p = k :: rest := by
      cases hs : segs p with
      | nil => exact absurd hs (segs_ne_nil p)
      | cons a b => exact ⟨a, b, rfl⟩
    rw [hsegs, getSegs_obj_cons]
    exact foldl_getStep_none rest

/-- An emitted suggestion's `oldValue` is `currentValue || ""`. -/
theorem fieldDecision_oldValue (project feature : Option JVal)
    (fv : List (String × Option String)) (e : String × FieldMeta)
    (s : Suggestion)
    (h : fieldDecision project feature fv e = some (some s)) :
    s.oldValue = jsOr (getByPath
      (detailsOrEmpty (sideOf project feature e.2.entity)) e.2.path) := by
  obtain ⟨fieldKey, meta⟩ := e
  obtain ⟨ent, path, lbl, isl⟩ := meta
  cases hlk : lookupFV fv fieldKey with
  | none => simp [fieldDecision, hlk] at h
  | some ov =>
    cases ov with
    | none => simp [fieldDecision, hlk] at h
    | some value =>
      cases ent with
    | project =>
      by_cases htr : jsTrim value = ""
      · simp [fieldDecision, hlk, htr] at h
      · cases isl with
        | true =>
          by_cases hii : normalizeList (jsTrim value) = []
          · simp [fieldDecision, hlk, htr, hii] at h
          · cases hcv : jsOr (getByPath (detailsOrEmpty project) path) with
            | obj o =>
              rw [show fieldDecision project feature fv
                  (fieldKey, ⟨.project, path, lbl, true⟩) = none by
                simp only [fieldDecision, hlk, if_neg htr, if_neg hii,
                  sideOf, hcv, if_true]] at h
              exact absurd h (by simp)
            | str cs =>
              by_cases hni : (normalizeList (jsTrim value)).filter
                  (fun v => ¬ (normalizeList cs).any
                    (fun ex => lc ex = lc v)) = []
              · simp only [fieldDecision, hlk, if_neg htr, if_neg hii,
                  sideOf, hcv, if_pos hni, Option.some.injEq, if_true] at h
                exact absurd h (by simp)
              · simp only [fieldDecision, hlk, if_neg htr, if_neg hii,
                  sideOf, hcv, if_neg hni, Option.some.injEq, if_true] at h
                rw [← h]
                show JVal.str cs = jsOr (getByPath
                  (detailsOrEmpty project) path)
                rw [hcv]
        | false =>
          by_cases hcond : jsTrim (jsStringOf (jsOr (getByPath
              (detailsOrEmpty project) path))) = "" ∨
              jsTrim (jsStringOf (jsOr (getByPath
                (detailsOrEmpty project) path))) ≠ jsTrim value
          · simp only [fieldDecision, hlk, if_neg htr, sideOf,
              if_pos hcond, Option.some.injEq, if_true, Bool.false_eq_true, if_false] at h
            rw [← h]
            rfl
          · simp only [fieldDecision, hlk, if_neg htr, sideOf,
              if_neg hcond, Option.some.injEq, if_true, Bool.false_eq_true, if_false] at h
            exact absurd h (by simp)
    | feature =>
      by_cases htr : jsTrim value = ""
      · simp [fieldDecision, hlk, htr] at h
      · cases isl with
        | true =>
          by_cases hii : normalizeList (jsTrim value) = []
          · simp [fieldDecision, hlk, htr, hii] at h
          · cases hcv : jsOr (getByPath (detailsOrEmpty feature) path) with
            | obj o =>
              rw [show fieldDecision project feature fv
                  (fieldKey, ⟨.feature, path, lbl, true⟩) = none by
                simp only [fieldDecision, hlk, if_neg htr, if_neg hii,
                  sideOf, hcv, if_true]] at h
              exact absurd h (by simp)
            | str cs =>
              by_cases hni : (normalizeList (jsTrim value)).filter
                  (fun v => ¬ (normalizeList cs).any
                    (fun ex => lc ex = lc v)) = []
              · simp only [fieldDecision, hlk, if_neg htr, if_neg hii,
                  sideOf, hcv, if_pos hni, Option.some.injEq, if_true] at h
                exact absurd h (by simp)
              · simp only [fieldDecision, hlk, if_neg htr, if_neg hii,
                  sideOf, hcv, if_neg hni, Option.some.injEq, if_true] at h
                rw [← h]
                show JVal.str cs = jsOr (getByPath
                  (detailsOrEmpty feature) path)
                rw [hcv]
        | false =>
          by_cases hcond : jsTrim (jsStringOf (jsOr (getByPath
              (detailsOrEmpty feature) path))) = "" ∨
              jsTrim (jsStringOf (jsOr (getByPath
                (detailsOrEmpty feature) path))) ≠ jsTrim value
          · simp only [fieldDecision, hlk, if_neg htr, sideOf,
              if_pos hcond, Option.some.injEq, if_true, Bool.false_eq_true, if_false] at h
            rw [← h]
            rfl
          · simp only [fieldDecision, hlk, if_neg htr, sideOf,
              if_neg hcond, Option.some.injEq, if_true, Bool.false_eq_true, if_false] at h
            exact absurd h (by simp)




/-- **C7** counterexample.  The two false parts of the claim: with the
project record absent, forward mapping still produces *project*-side
suggestions (the absent side degrades to `{}`, so its fields all read
empty current values); and `deriveProjectUpdates` is not total — a
stored *object* at a list field's path makes the source call
`current.split` on an object, a thrown TypeError. -/
theorem C7_counterexample :
    ((deriveProjectUpdates none none discoveryMap
        [("stakeholders", some "Bob")]).map
      (fun out => out.suggestions.any
        (fun s => decide (s.entity = .project))) = some true) ∧
    deriveProjectUpdates
      (some (.obj [("general", .obj [("stakeholders", .obj [])])])) none
      discoveryMap [("stakeholders", some "Bob")] = none := by
  constructor
  · decide
  · decide

/-- **C7** (amended).  With both records absent, forward mapping still
returns normally (under the amended non-empty / non-overlapping path
hypotheses) — but it produces suggestions for the *absent* sides too:
every emitted suggestion's `oldValue` is the empty string, rather than
output being restricted to entities with data available. -/
theorem C7_absent_degrades (map : List (String × FieldMeta))
    (fv : List (String × Option String))
    (hne : ∀ e ∈ map, e.2.path ≠ "")
    (hpw : map.Pairwise (fun a b => a.2.entity = b.2.entity →
      isSegPre (segs a.2.path) (segs b.2.path) = false ∧
      isSegPre (segs b.2.path) (segs a.2.path) = false)) :
    ∃ out, deriveProjectUpdates none none map fv = some out ∧
      ∀ s ∈ out.suggestions, s.oldValue = .str "" := by
  have hside : ∀ ent : EntityKind,
      detailsOrEmpty (sideOf none none ent) = .obj [] := by
    intro ent
    cases ent <;> rfl
  have hd : ∀ e ∈ map, fieldDecision none none fv e ≠ none := by
    intro e he
    refine fieldDecision_ne_none none none fv e (fun hil o => ?_)
    rw [hside e.2.entity, getByPath_emptyObj]
    simp
  have hewinit : ∀ e ∈ map,
      ew (updatesFor ⟨emptyGeneral, emptyGeneral, []⟩ e.2.entity)
        (segs e.2.path) = true := by
    intro e _
    cases e.2.entity <;>
      exact ew_emptyGeneral (segs e.2.path) (segs_ne_nil e.2.path)
  obtain ⟨out, hder, hsugg⟩ :=
    deriveGo_char none none fv map ⟨emptyGeneral, emptyGeneral, []⟩
      hd hne hewinit hpw
  refine ⟨out, hder, ?_⟩
  intro s hs
  rw [show out.suggestions =
      map.filterMap (fun e => (fieldDecision none none fv e).join) by
    simpa using hsugg] at hs
  obtain ⟨e, he, hfe⟩ := List.mem_filterMap.mp hs
  have hde := Option.join_eq_some.mp hfe
  have := fieldDecision_oldValue none none fv e s hde
  rw [hside e.2.entity, getByPath_emptyObj] at this
  exact this

/-- Witness for `C7_absent_degrades` on the collision-free prefix of the
`discovery` map. -/
theorem C7_witness :
    ∃ out, deriveProjectUpdates none none (discoveryMap.take 6)
        [("stakeholders", some "Ann"), ("featureSize", some "L")] = some out ∧
      ∀ s ∈ out.suggestions, s.oldValue = .str "" :=
  C7_absent_degrades (discoveryMap.take 6)
    [("stakeholders", some "Ann"), ("featureSize", some "L")]
    (by decide) (by decide)


/-! ### C3: scalar fields suggest exactly on change -/

/-- **C3** (confirmed).  For a mapped scalar field with a non-empty
trimmed incoming value: when the current stored value (read through
`currentValue || ""` and stringified) trims to the same string, the
field is a complete no-op — the run returns the pristine initial state,
no suggestion and no update; otherwise exactly one suggestion is
emitted, carrying the current value as `oldValue` and the trimmed
incoming value as `newValue`. -/
theorem C3_scalar_change (project feature : Option JVal) (c : JVal)
    (fieldKey path lbl : String) (ent : EntityKind) (value : String)
    (htr : jsTrim value ≠ "") (hne : path ≠ "")
    (hcur : jsOr (getByPath (detailsOrEmpty (sideOf project feature ent))
      path) = c) :
    (jsTrim (jsStringOf c) ≠ "" ∧ jsTrim (jsStringOf c) = jsTrim value →
      deriveProjectUpdates project feature
        [(fieldKey, ⟨ent, path, lbl, false⟩)] [(fieldKey, some value)] =
        some ⟨emptyGeneral, emptyGeneral, []⟩) ∧
    (jsTrim (jsStringOf c) = "" ∨ jsTrim (jsStringOf c) ≠ jsTrim value →
      ∃ st, deriveProjectUpdates project feature
          [(fieldKey, ⟨ent, path, lbl, false⟩)] [(fieldKey, some value)] =
          some st ∧
        st.suggestions =
          [⟨ent, path, labelOr lbl fieldKey, c, jsTrim value⟩]) := by
  have hlk : lookupFV [(fieldKey, some value)] fieldKey =
      some (some value) := by
    simp [lookupFV]
  constructor
  · rintro ⟨hne', heq'⟩
    have hdec : fieldDecision project feature [(fieldKey, some value)]
        (fieldKey, ⟨ent, path, lbl, false⟩) = some none := by
      cases ent with
      | project =>
        have hcond : ¬(jsTrim (jsStringOf (jsOr (getByPath
            (detailsOrEmpty project) path))) = "" ∨
            jsTrim (jsStringOf (jsOr (getByPath
              (detailsOrEmpty project) path))) ≠ jsTrim value) := by
          rw [show jsOr (getByPath (detailsOrEmpty project) path) = c
            from hcur]
          push_neg
          exact ⟨hne', heq'⟩
        simp only [fieldDecision, hlk, if_neg htr, sideOf, if_neg hcond,
          Bool.false_eq_true, if_false]
      | feature =>
        have hcond : ¬(jsTrim (jsStringOf (jsOr (getByPath
            (detailsOrEmpty feature) path))) = "" ∨
            jsTrim (jsStringOf (jsOr (getByPath
              (detailsOrEmpty feature) path))) ≠ jsTrim value) := by
          rw [show jsOr (getByPath (detailsOrEmpty feature) path) = c
            from hcur]
          push_neg
          exact ⟨hne', heq'⟩
        simp only [fieldDecision, hlk, if_neg htr, sideOf, if_neg hcond,
          Bool.false_eq_true, if_false]
    show deriveGo project feature [(fieldKey, some value)]
      ⟨emptyGeneral, emptyGeneral, []⟩ [(fieldKey, ⟨ent, path, lbl, false⟩)] =
      some ⟨emptyGeneral, emptyGeneral, []⟩
    simp only [deriveGo, processField_eq, hdec]
  · intro hcase
    have hew0 : ew emptyGeneral (segs path) = true :=
      ew_emptyGeneral _ (segs_ne_nil path)
    obtain ⟨u, hu, _⟩ :=
      ew_set_get (segs path) emptyGeneral (.str (jsTrim value)) hew0
    have hset : setByPath emptyGeneral path (.str (jsTrim value)) =
        some u := by
      rw [show (emptyGeneral : JVal) = .obj [("general", .obj [])] from rfl,
        setByPath_obj _ path _ hne]
      exact hu
    cases ent with
    | project =>
      have hdec : fieldDecision project feature [(fieldKey, some value)]
          (fieldKey, ⟨.project, path, lbl, false⟩) =
          some (some ⟨.project, path, labelOr lbl fieldKey, c,
            jsTrim value⟩) := by
        have hcond : jsTrim (jsStringOf (jsOr (getByPath
            (detailsOrEmpty project) path))) = "" ∨
            jsTrim (jsStringOf (jsOr (getByPath
              (detailsOrEmpty project) path))) ≠ jsTrim value := by
          rw [show jsOr (getByPath (detailsOrEmpty project) path) = c
            from hcur]
          exact hcase
        simp only [fieldDecision, hlk, if_neg htr, sideOf, if_pos hcond,
          Bool.false_eq_true, if_false]
        rw [show jsOr (getByPath (detailsOrEmpty project) path) = c
          from hcur]
      refine ⟨⟨u, emptyGeneral,
        [⟨.project, path, labelOr lbl fieldKey, c, jsTrim value⟩]⟩, ?_, rfl⟩
      show deriveGo project feature [(fieldKey, some value)]
        ⟨emptyGeneral, emptyGeneral, []⟩
        [(fieldKey, ⟨.project, path, lbl, false⟩)] = some _
      simp only [deriveGo, processField_eq, hdec, hset, Option.map_some',
        List.nil_append]
    | feature =>
      have hdec : fieldDecision project feature [(fieldKey, some value)]
          (fieldKey, ⟨.feature, path, lbl, false⟩) =
          some (some ⟨.feature, path, labelOr lbl fieldKey, c,
            jsTrim value⟩) := by
        have hcond : jsTrim (jsStringOf (jsOr (getByPath
            (detailsOrEmpty feature) path))) = "" ∨
            jsTrim (jsStringOf (jsOr (getByPath
              (detailsOrEmpty feature) path))) ≠ jsTrim value := by
          rw [show jsOr (getByPath (detailsOrEmpty feature) path) = c
            from hcur]
          exact hcase
        simp only [fieldDecision, hlk, if_neg htr, sideOf, if_pos hcond,
          Bool.false_eq_true, if_false]
        rw [show jsOr (getByPath (detailsOrEmpty feature) path) = c
          from hcur]
      refine ⟨⟨emptyGeneral, u,
        [⟨.feature, path, labelOr lbl fieldKey, c, jsTrim value⟩]⟩, ?_, rfl⟩
      show deriveGo project feature [(fieldKey, some value)]
        ⟨emptyGeneral, emptyGeneral, []⟩
        [(fieldKey, ⟨.feature, path, lbl, false⟩)] = some _
      simp only [deriveGo, processField_eq, hdec, hset, Option.map_some',
        List.nil_append]

/-- Witness for `C3_scalar_change` at the spec's own example: stored
`"Acme Corp"`, incoming `"Acme Co"`. -/
theorem C3_witness :
    (jsTrim (jsStringOf (JVal.str "Acme Corp")) ≠ "" ∧
        jsTrim (jsStringOf (JVal.str "Acme Corp")) = jsTrim "Acme Co" →
      deriveProjectUpdates
        (some (.obj [("general", .obj [("company", .str "Acme Corp")])]))
        none [("company", ⟨.project, "general.company", "", false⟩)]
        [("company", some "Acme Co")] =
        some ⟨emptyGeneral, emptyGeneral, []⟩) ∧
    (jsTrim (jsStringOf (JVal.str "Acme Corp")) = "" ∨
        jsTrim (jsStringOf (JVal.str "Acme Corp")) ≠ jsTrim "Acme Co" →
      ∃ st, deriveProjectUpdates
          (some (.obj [("general", .obj [("company", .str "Acme Corp")])]))
          none [("company", ⟨.project, "general.company", "", false⟩)]
          [("company", some "Acme Co")] = some st ∧
        st.suggestions = [⟨.project, "general.company",
          labelOr "" "company", .str "Acme Corp", jsTrim "Acme Co"⟩]) :=
  C3_scalar_change
    (some (.obj [("general", .obj [("company", .str "Acme Corp")])]))
    none (.str "Acme Corp") "company" "general.company" "" .project
    "Acme Co" (by decide) (by decide) (by decide)


/-! ### C4: empty-value fields are no-ops -/

/-- A field whose submitted value is missing, null, or trims to the
empty string leaves the running state untouched. -/
theorem processField_inactive (project feature : Option JVal)
    (fv : List (String × Option String)) (st : DeriveState)
    (e : String × FieldMeta) (h : activeFV fv e.1 = false) :
    processField project feature fv st e = some st := by
  rw [processField_eq]
  have hdec : fieldDecision project feature fv e = some none := by
    unfold activeFV at h
    cases hlk : lookupFV fv e.1 with
    | none => simp [fieldDecision, hlk]
    | some ov =>
      cases ov with
      | none => simp [fieldDecision, hlk]
      | some v =>
        rw [hlk] at h
        simp only [decide_eq_false_iff_not, not_not] at h
        simp [fieldDecision, hlk, h]
  rw [hdec]

/-- **C4** (confirmed).  Fields submitted as `undefined`, `null`, empty
or whitespace-only contribute nothing: dropping every inactive field
from the semantic map leaves `deriveProjectUpdates` unchanged — on every
input, including the suggestion list and both update payloads. -/
theorem C4_empty_values_no_op (project feature : Option JVal)
    (map : List (String × FieldMeta))
    (fv : List (String × Option String)) :
    deriveProjectUpdates project feature map fv =
      deriveProjectUpdates project feature
        (map.filter fun e => activeFV fv e.1) fv := by
  show deriveGo project feature fv ⟨emptyGeneral, emptyGeneral, []⟩ map =
    deriveGo project feature fv ⟨emptyGeneral, emptyGeneral, []⟩
      (map.filter fun e => activeFV fv e.1)
  generalize (⟨emptyGeneral, emptyGeneral, []⟩ : DeriveState) = st
  induction map generalizing st with
  | nil => rfl
  | cons e rest ih =>
    by_cases ha : activeFV fv e.1 = true
    · rw [List.filter_cons, if_pos ha]
      show (match processField project feature fv st e with
        | none => none
        | some st' => deriveGo project feature fv st' rest) =
        (match processField project feature fv st e with
        | none => none
        | some st' => deriveGo project feature fv st'
            (rest.filter fun x => activeFV fv x.1))
      cases processField project feature fv st e with
      | none => rfl
      | some st' => exact ih st'
    · rw [List.filter_cons, if_neg ha]
      show (match processField project feature fv st e with
        | none => none
        | some st' => deriveGo project feature fv st' rest) = _
      rw [processField_inactive project feature fv st e
        (Bool.eq_false_iff.mpr ha)]
      exact ih st


/-! ### C8: malformed stored details are tolerated -/

/-- **C8** (confirmed).  `normalizeDetails` never throws and degrades
malformed input, for every JSON parser: an absent value yields the empty
object; a structure is returned unchanged; a non-empty string is parsed,
a parse failure yielding the empty object and a parse success the parsed
value; the empty string (falsy, so caught by the `!details` guard before
any parse) also yields the empty object. -/
theorem C8_normalize_details (parse : String → Option JVal) :
    normalizeDetails parse none = .obj [] ∧
    (∀ o, normalizeDetails parse (some (.obj o)) = .obj o) ∧
    (∀ s, s ≠ "" → parse s = none →
      normalizeDetails parse (some (.str s)) = .obj []) ∧
    (∀ s v, s ≠ "" → parse s = some v →
      normalizeDetails parse (some (.str s)) = v) ∧
    normalizeDetails parse (some (.str "")) = .obj [] := by
  refine ⟨rfl, ?_, ?_, ?_, ?_⟩
  · intro o
    simp [normalizeDetails, truthy]
  · intro s hs hp
    simp [normalizeDetails, truthy, hs, hp]
  · intro s v hs hp
    simp [normalizeDetails, truthy, hs, hp]
  · simp [normalizeDetails, truthy]

/-- Witness for `C8_normalize_details` with a concrete parser. -/
theorem C8_witness :
    normalizeDetails (fun s => if s = "[]" then some (.obj []) else none)
      none = .obj [] ∧
    normalizeDetails (fun s => if s = "[]" then some (.obj []) else none)
      (some (.obj [("a", .str "b")])) = .obj [("a", .str "b")] ∧
    normalizeDetails (fun s => if s = "[]" then some (.obj []) else none)
      (some (.str "oops")) = .obj [] ∧
    normalizeDetails (fun s => if s = "[]" then some (.obj []) else none)
      (some (.str "[]")) = .obj [] ∧
    normalizeDetails (fun s => if s = "[]" then some (.obj []) else none)
      (some (.str "")) = .obj [] :=
  ⟨(C8_normalize_details _).1,
   (C8_normalize_details _).2.1 _,
   (C8_normalize_details _).2.2.1 "oops" (by decide) (by decide),
   (C8_normalize_details _).2.2.2.1 "[]" (.obj []) (by decide) (by decide),
   (C8_normalize_details _).2.2.2.2⟩


/-! ### C6: heuristic select matching is a deterministic argmax -/

/-- `find?` respects pointwise-equal predicates. -/
theorem find_congr {α : Type} (p q : α → Bool) (h : ∀ a, p a = q a) :
    ∀ l : List α, l.find? p = l.find? q := by
  intro l
  induction l with
  | nil => rfl
  | cons a l ih => simp only [List.find?, h, ih]

/-- One option's pass of `bestOption`'s inner token fold: the score
becomes the running maximum against the option's best token score, and
the option takes the lead exactly on a strict improvement. -/
theorem bestOption_step (opt : String × String) (tokens : List String) :
    ∀ acc : Option (String × String) × Nat,
    tokens.foldl
      (fun acc2 token =>
        if token = "" then acc2
        else
          let score := tokenScore (lc opt.1) (lc opt.2) token
          if acc2.2 < score then (some opt, score) else acc2)
      acc =
    (if acc.2 < optScoreL opt tokens then some opt else acc.1,
     max acc.2 (optScoreL opt tokens)) := by
  induction tokens with
  | nil =>
    intro acc
    simp [optScoreL, tokScoreMax]
  | cons t ts ih =>
    intro acc
    simp only [List.foldl_cons]
    by_cases ht : t = ""
    · rw [if_pos ht, ih]
      simp only [optScoreL, tokScoreMax, if_pos ht]
    · rw [if_neg ht]
      by_cases hlt : acc.2 < tokenScore (lc opt.1) (lc opt.2) t
      · rw [if_pos hlt, ih]
        have h1 : acc.2 < max (tokenScore (lc opt.1) (lc opt.2) t)
            (tokScoreMax (lc opt.1) (lc opt.2) ts) := by omega
        simp only [optScoreL, tokScoreMax, if_neg ht, ite_self, if_pos h1,
          Prod.mk.injEq]
        exact ⟨trivial, by omega⟩
      · rw [if_neg hlt, ih]
        have hs : tokenScore (lc opt.1) (lc opt.2) t ≤ acc.2 := by omega
        simp only [optScoreL, tokScoreMax, if_neg ht, Prod.mk.injEq]
        constructor
        · by_cases h2 : acc.2 < tokScoreMax (lc opt.1) (lc opt.2) ts
          · rw [if_pos h2, if_pos (by omega)]
          · rw [if_neg h2, if_neg (by omega)]
        · omega

/-- Full characterisation of `bestOption`'s fold from any accumulator:
the final score is the running maximum of the option scores, and the
winner is the earliest option attaining it (kept from the accumulator
when nothing improves on it). -/
theorem bestOption_fold (toks : List String) :
    ∀ (opts : List (String × String)) (acc : Option (String × String) × Nat),
    opts.foldl
      (fun acc opt =>
        let optText := lc opt.1
        let optVal := lc opt.2
        toks.foldl
          (fun acc2 token =>
            if token = "" then acc2
            else
              let score := tokenScore optText optVal token
              if acc2.2 < score then (some opt, score) else acc2)
          acc)
      acc =
    (if acc.2 < maxScoreL toks opts
     then opts.find? (fun o => decide (maxScoreL toks opts ≤ optScoreL o toks))
     else acc.1,
     max acc.2 (maxScoreL toks opts)) := by
  intro opts
  induction opts with
  | nil =>
    intro acc
    simp [maxScoreL]
  | cons o os ih =>
    intro acc
    simp only [List.foldl_cons]
    rw [bestOption_step o toks acc, ih]
    simp only [maxScoreL, Prod.mk.injEq]
    constructor
    · by_cases hA : max acc.2 (optScoreL o toks) < maxScoreL toks os
      · rw [if_pos hA, if_pos (by omega)]
        have hmax : max (optScoreL o toks) (maxScoreL toks os) =
            maxScoreL toks os := by omega
        simp only [hmax]
        rw [List.find?_cons_of_neg _
          (by simp only [decide_eq_true_eq]; omega)]
      · rw [if_neg hA]
        by_cases hB : acc.2 < optScoreL o toks
        · rw [if_pos hB, if_pos (by omega)]
          rw [List.find?_cons_of_pos _
            (by simp only [decide_eq_true_eq]; omega)]
        · rw [if_neg hB, if_neg (by omega)]
    · omega

/-- **C6** (confirmed).  The select heuristic is a deterministic argmax:
`bestOption`'s score is the maximum option score; no option is chosen
exactly when every score is zero; otherwise the chosen option is the
*first* one attaining the maximum (ties break by occurrence order).  An
exact token hit on an option's text or value scores `length + 5` while
any partial substring overlap scores at most `length`, so exact matches
outrank partial ones.  On the claim's example — options Product
Manager / Developer / QA Engineer against candidate text
`"Developer, QA"` — the heuristic fills in `"Developer"`, the
higher-scoring of the two overlapping options. -/
theorem C6_select_best (opts : List (String × String)) (toks : List String)
    (ot ov t : String) :
    (bestOption opts toks).2 = maxScoreL toks opts ∧
    (maxScoreL toks opts = 0 → (bestOption opts toks).1 = none) ∧
    (0 < maxScoreL toks opts → (bestOption opts toks).1 =
      opts.find? (fun o => decide (maxScoreL toks opts ≤ optScoreL o toks))) ∧
    ((ot = t ∨ ov = t) → tokenScore ot ov t = t.length + 5) ∧
    (¬(ot = t ∨ ov = t) → tokenScore ot ov t ≤ t.length) ∧
    (applyHeuristicMapping (.obj [("roles", .str "Developer, QA")])
        [⟨"role", "role", "select", "", "Team role", "",
          [("Product Manager", "Product Manager"),
           ("Developer", "Developer"),
           ("QA Engineer", "QA Engineer")]⟩]).map
      (fun r => (r.1.map (fun f => f.value), r.2)) =
      some (["Developer"], true) := by
  have hb : bestOption opts toks =
      (if (0 : Nat) < maxScoreL toks opts
       then opts.find?
         (fun o => decide (maxScoreL toks opts ≤ optScoreL o toks))
       else none,
       max 0 (maxScoreL toks opts)) := bestOption_fold toks opts (none, 0)
  refine ⟨?_, ?_, ?_, ?_, ?_, ?_⟩
  · rw [hb]
    show max 0 (maxScoreL toks opts) = maxScoreL toks opts
    omega
  · intro h0
    rw [hb]
    show (if (0 : Nat) < maxScoreL toks opts then _ else none) = none
    rw [h0]
    simp
  · intro hM
    rw [hb]
    show (if (0 : Nat) < maxScoreL toks opts then _ else none) = _
    rw [if_pos hM]
  · intro h
    simp only [tokenScore, if_pos h]
  · intro h
    simp only [tokenScore, if_neg h]
    by_cases h2 : (containsSub t.data ot.data || containsSub ot.data t.data ||
        containsSub t.data ov.data) = true
    · rw [if_pos h2]
    · rw [if_neg h2]
      omega
  · decide

/-- Witness for `C6_select_best` on the claim's own data. -/
theorem C6_witness :
    (bestOption
        [("Product Manager", "Product Manager"), ("Developer", "Developer"),
         ("QA Engineer", "QA Engineer")] ["developer", "qa"]).1 =
      [("Product Manager", "Product Manager"), ("Developer", "Developer"),
       ("QA Engineer", "QA Engineer")].find?
        (fun o => decide (maxScoreL ["developer", "qa"]
          [("Product Manager", "Product Manager"),
           ("Developer", "Developer"), ("QA Engineer", "QA Engineer")] ≤
          optScoreL o ["developer", "qa"])) ∧
    tokenScore "developer" "developer" "developer" =
      "developer".length + 5 :=
  ⟨(C6_select_best
      [("Product Manager", "Product Manager"), ("Developer", "Developer"),
       ("QA Engineer", "QA Engineer")] ["developer", "qa"]
      "developer" "developer" "developer").2.2.1 (by decide),
   (C6_select_best
      [("Product Manager", "Product Manager"), ("Developer", "Developer"),
       ("QA Engineer", "QA Engineer")] ["developer", "qa"]
      "developer" "developer" "developer").2.2.2.1 (Or.inl rfl)⟩


/-! ### C9: keyword-to-period extraction, not sentence extraction -/

/-- A dot-free pattern that is a (case-insensitive) prefix of the input
is still a prefix of the input's keyword-to-period match. -/
theorem isPrefixCh_takeToDot : ∀ (p l : List Char), ('.' : Char) ∉ p →
    isPrefixCh p (lcL l) = true →
    isPrefixCh p (lcL (takeToDot l)) = true := by
  intro p
  induction p with
  | nil => intro l _ _; rfl
  | cons a as ih =>
    intro l hdf hp
    cases l with
    | nil => simp [lcL, isPrefixCh] at hp
    | cons b bs =>
      simp only [lcL, List.map_cons, isPrefixCh, Bool.and_eq_true,
        decide_eq_true_eq] at hp
      obtain ⟨hab, hrest⟩ := hp
      by_cases hb : b = '.'
      · exfalso
        have ha : a = '.' := by
          rw [hab, hb]
          decide
        rw [ha] at hdf
        exact hdf (List.mem_cons_self _ _)
      · have ht : takeToDot (b :: bs) = b :: takeToDot bs := by
          simp [takeToDot, List.takeWhile_cons, hb]
        rw [ht]
        simp only [lcL, List.map_cons, isPrefixCh, Bool.and_eq_true,
          decide_eq_true_eq]
        exact ⟨hab, ih bs (fun hm => hdf (List.mem_cons_of_mem a hm)) hrest⟩

/-- Shape of every regex match produced by the scanner: it spans from a
case-insensitive keyword hit up to and including the *first* following
period (no interior period) — it does not reach back to the start of the
sentence. -/
theorem scanGo_shape (kws : List String)
    (hdf : ∀ kw ∈ kws, ('.' : Char) ∉ (lc kw).data) :
    ∀ (fuel : Nat) (l m : List Char), m ∈ scanGo kws fuel l →
    (∃ pre, m = pre ++ ['.'] ∧ ('.' : Char) ∉ pre) ∧
    ∃ kw ∈ kws, isPrefixCh (lcL kw.data) (lcL m) = true := by
  intro fuel
  induction fuel with
  | zero =>
    intro l m hm
    simp [scanGo] at hm
  | succ fuel ih =>
    intro l m hm
    cases l with
    | nil => simp [scanGo] at hm
    | cons c rest =>
      rw [scanGo] at hm
      by_cases hcond : isKwAt kws (c :: rest) = true ∧
          hasDot (c :: rest) = true
      · rw [if_pos hcond] at hm
        rcases List.mem_cons.mp hm with hm1 | hm2
        · subst hm1
          constructor
          · refine ⟨(c :: rest).takeWhile (fun x => x ≠ '.'), rfl, ?_⟩
            intro hmem
            have := List.mem_takeWhile_imp hmem
            simp at this
          · obtain ⟨hkw, _⟩ := hcond
            rw [isKwAt, List.any_eq_true] at hkw
            obtain ⟨kw, hkwm, hpre⟩ := hkw
            refine ⟨kw, hkwm, ?_⟩
            exact isPrefixCh_takeToDot (lcL kw.data) (c :: rest)
              (hdf kw hkwm) hpre
        · exact ih _ m hm2
      · rw [if_neg hcond] at hm
        exact ih rest m hm

/-- **C9** counterexample.  The source matches with
`/(?:keyword…)[^.]*\./gi` — from the keyword occurrence to the next
period — not by splitting into sentences and keeping whole matching
sentences as the spec describes: on `"We met. The key stakeholder is
Bob."` the source extracts `"stakeholder is Bob."`, while the claimed
sentence semantics yield `"The key stakeholder is Bob"`. -/
theorem C9_counterexample :
    extractWithFallback stakeholderKws peopleKws
      "We met. The key stakeholder is Bob." = some "stakeholder is Bob." ∧
    claimSentenceExtract stakeholderKws
      "We met. The key stakeholder is Bob." =
      "The key stakeholder is Bob" ∧
    some (claimSentenceExtract stakeholderKws
      "We met. The key stakeholder is Bob.") ≠
      extractWithFallback stakeholderKws peopleKws
        "We met. The key stakeholder is Bob." := by
  refine ⟨?_, ?_, ?_⟩ <;> decide

/-- **C9** (amended).  What the extractor really does: every match runs
from a case-insensitive keyword occurrence to the first following period
(never a whole sentence); a discovery field's broader fallback list is
consulted exactly when the primary list matches nothing; and the
analysis-phase fields have *no* fallback at all — when the timeline
keywords match nothing, `extractedData` simply has no
`implementationTimeline` entry. -/
theorem C9_keyword_extraction (kws prim fb : List String) (resp : String)
    (hdf : ∀ kw ∈ kws, ('.' : Char) ∉ (lc kw).data) :
    (∀ m ∈ scanMatches kws resp,
      (∃ pre, m.data = pre ++ ['.'] ∧ ('.' : Char) ∉ pre) ∧
      ∃ kw ∈ kws, isPrefixCh (lcL kw.data) (lcL m.data) = true) ∧
    (extractWithFallback prim fb resp = none ↔
      scanMatches prim resp = [] ∧ scanMatches fb resp = []) ∧
    (scanMatches prim resp ≠ [] →
      extractWithFallback prim fb resp =
        some (extractJoin (scanMatches prim resp))) ∧
    (scanMatches timelineKws resp = [] →
      (extractAnalysisData resp).lookup "implementationTimeline" = none) := by
  refine ⟨?_, ?_, ?_, ?_⟩
  · intro m hm
    rw [scanMatches, List.mem_map] at hm
    obtain ⟨l, hl, hml⟩ := hm
    rw [← hml]
    exact scanGo_shape kws hdf resp.data.length resp.data l hl
  · rw [extractWithFallback]
    cases hp : scanMatches prim resp with
    | nil =>
      cases hf : scanMatches fb resp with
      | nil => simp
      | cons a l => simp [hf]
    | cons a l => simp [hp]
  · intro hp
    rw [extractWithFallback]
    cases hp2 : scanMatches prim resp with
    | nil => exact absurd hp2 hp
    | cons a l => rfl
  · intro h0
    have ht : extractSimple timelineKws resp = none := by
      simp [extractSimple, h0]
    cases hb : extractSimple budgetKws resp with
    | none =>
      cases hc : extractSimple changeKws resp with
      | none => simp [extractAnalysisData, ht, hb, hc]
      | some v => simp [extractAnalysisData, ht, hb, hc, List.lookup]
    | some v =>
      cases hc : extractSimple changeKws resp with
      | none => simp [extractAnalysisData, ht, hb, hc, List.lookup]
      | some w => simp [extractAnalysisData, ht, hb, hc, List.lookup]

/-- Witness for `C9_keyword_extraction` on the counterexample input. -/
theorem C9_witness :
    (∀ m ∈ scanMatches stakeholderKws "Costs rose. The team met Ann.",
      (∃ pre, m.data = pre ++ ['.'] ∧ ('.' : Char) ∉ pre) ∧
      ∃ kw ∈ stakeholderKws,
        isPrefixCh (lcL kw.data) (lcL m.data) = true) ∧
    (extractWithFallback stakeholderKws peopleKws
        "Costs rose. The team met Ann." = none ↔
      scanMatches stakeholderKws "Costs rose. The team met Ann." = [] ∧
      scanMatches peopleKws "Costs rose. The team met Ann." = []) ∧
    (scanMatches stakeholderKws "Costs rose. The team met Ann." ≠ [] →
      extractWithFallback stakeholderKws peopleKws
        "Costs rose. The team met Ann." =
        some (extractJoin
          (scanMatches stakeholderKws "Costs rose. The team met Ann."))) ∧
    (scanMatches timelineKws "Costs rose. The team met Ann." = [] →
      (extractAnalysisData "Costs rose. The team met Ann.").lookup
        "implementationTimeline" = none) :=
  C9_keyword_extraction stakeholderKws stakeholderKws peopleKws
    "Costs rose. The team met Ann." (by decide)


/-! ### C5: which fields prefill may touch -/

/-- `updAt` leaves every other index unchanged. -/
theorem updAt_get_ne (v : String) :
    ∀ (form : List FormField) (i j : Nat), i ≠ j →
    (updAt i v form).get? j = form.get? j := by
  intro form
  induction form with
  | nil => intro i j _; cases i <;> rfl
  | cons fd rest ih =>
    intro i j hij
    cases i with
    | zero =>
      cases j with
      | zero => exact absurd rfl hij
      | succ j => rfl
    | succ i =>
      cases j with
      | zero => rfl
      | succ j =>
        show (updAt i v rest).get? j = rest.get? j
        exact ih i j (fun h => hij (by rw [h]))

/-- A found index holds a field satisfying the probe. -/
theorem findIdxBy_get (p : FormField → Bool) :
    ∀ (form : List FormField) (i : Nat), findIdxBy p form = some i →
    ∃ fd, form.get? i = some fd ∧ p fd = true := by
  intro form
  induction form with
  | nil => intro i h; simp [findIdxBy] at h
  | cons fd rest ih =>
    intro i h
    rw [findIdxBy] at h
    by_cases hp : p fd = true
    · rw [if_pos hp] at h
      obtain rfl := Option.some.inj h
      exact ⟨fd, rfl, hp⟩
    · rw [if_neg hp] at h
      cases hr : findIdxBy p rest with
      | none => rw [hr] at h; simp at h
      | some j =>
        rw [hr] at h
        simp only [Option.map_some'] at h
        obtain rfl := Option.some.inj h
        obtain ⟨fd', hfd', hp'⟩ := ih j hr
        exact ⟨fd', hfd', hp'⟩

/-- The raw phase-value writes never touch a field whose id is not a
saved key. -/
theorem applyRaw_pres (values : List (String × JVal)) :
    ∀ (form : List FormField) (i : Nat) (fd : FormField),
    form.get? i = some fd → (∀ kv ∈ values, kv.1 ≠ fd.id) →
    (applyRawFormValues values form).get? i = some fd := by
  induction values with
  | nil => intro form i fd h _; exact h
  | cons kv rest ih =>
    intro form i fd h hid
    rw [applyRawFormValues, List.foldl_cons]
    refine ih _ i fd ?_ (fun kv' hkv' => hid kv' (List.mem_cons_of_mem kv hkv'))
    cases hj : idxById form kv.1 with
    | none => exact h
    | some j =>
      obtain ⟨fd', hfd', hp⟩ := findIdxBy_get _ form j hj
      have hp' : fd'.id = kv.1 := of_decide_eq_true hp
      have hji : j ≠ i := by
        intro hcontra
        rw [hcontra, h] at hfd'
        obtain rfl := Option.some.inj hfd'
        exact hid kv (List.mem_cons_self kv rest) hp'.symm
      rw [updAt_get_ne _ form j i hji]
      exact h

/-- `applyRaw_pres` through the `hasPhaseValues` guard. -/
theorem applyRaw_ite_pres (c : Prop) [Decidable c]
    (values : List (String × JVal)) (form : List FormField) (i : Nat)
    (fd : FormField) (h : form.get? i = some fd)
    (hid : ∀ kv ∈ values, kv.1 ≠ fd.id) :
    (if c then applyRawFormValues values form else form).get? i = some fd := by
  split
  · exact applyRaw_pres values form i fd h hid
  · exact h

/-- `setIfEmpty` never touches a non-blank field. -/
theorem setIfEmpty_pres (fid : String) (val : Option JVal)
    (form : List FormField) (i : Nat) (fd : FormField)
    (h : form.get? i = some fd) (hnb : jsTrim fd.value ≠ "") :
    (setIfEmpty form fid val).1.get? i = some fd := by
  rw [setIfEmpty]
  split
  · exact h
  · split
    · exact h
    · rename_i j heqj
      split
      · exact h
      · rename_i fd' heqg
        split
        · rename_i hcond
          split
          · rename_i v heqv
            have hji : j ≠ i := by
              intro hcontra
              rw [hcontra, h] at heqg
              obtain rfl := Option.some.inj heqg
              rcases hcond with h1 | h1
              · exact hnb (by rw [h1]; rfl)
              · exact hnb h1
            show (updAt j (jsStringOf v) form).get? i = some fd
            rw [updAt_get_ne _ form j i hji]
            exact h
          · exact h
        · exact h

/-- The safety-net chains never touch a non-blank field. -/
theorem setIfEmptyAll_pres : ∀ (l : List (String × Option JVal))
    (form : List FormField) (ap : Bool) (i : Nat) (fd : FormField),
    form.get? i = some fd → jsTrim fd.value ≠ "" →
    (setIfEmptyAll form ap l).1.get? i = some fd := by
  intro l
  induction l with
  | nil => intro form ap i fd h _; exact h
  | cons pr rest ih =>
    intro form ap i fd h hnb
    obtain ⟨pid, pval⟩ := pr
    simp only [setIfEmptyAll]
    exact ih _ _ i fd (setIfEmpty_pres pid pval form i fd h hnb) hnb

/-- The semantic-map pass never touches a non-blank field. -/
theorem mapPass_pres : ∀ (map : List (String × FieldMeta))
    (sources : List JVal) (fg pg : JVal) (form : List FormField) (ap : Bool)
    (r : List FormField × Bool) (i : Nat) (fd : FormField),
    mapPass sources fg pg form ap map = some r →
    form.get? i = some fd → jsTrim fd.value ≠ "" →
    r.1.get? i = some fd := by
  intro map
  induction map with
  | nil =>
    intro sources fg pg form ap r i fd hres h _
    obtain rfl := Option.some.inj hres
    exact h
  | cons e rest ih =>
    intro sources fg pg form ap r i fd hres h hnb
    obtain ⟨fieldKey, meta⟩ := e
    rw [mapPass] at hres
    cases hidx : idxByIdOrName form fieldKey with
    | none =>
      simp only [hidx] at hres
      exact ih sources fg pg form ap r i fd hres h hnb
    | some j =>
      simp only [hidx] at hres
      cases hget : form.get? j with
      | none =>
        simp only [hget] at hres
        exact ih sources fg pg form ap r i fd hres h hnb
      | some fd' =>
        simp only [hget] at hres
        by_cases hcond : fd'.value ≠ "" ∧ jsTrim fd'.value ≠ ""
        · rw [if_pos hcond] at hres
          exact ih sources fg pg form ap r i fd hres h hnb
        · rw [if_neg hcond] at hres
          cases hgv : getVal sources fg pg meta fieldKey with
          | none =>
            simp only [hgv] at hres
            exact Option.noConfusion hres
          | some v =>
            simp only [hgv] at hres
            by_cases htv : truthy v = true
            · rw [if_pos htv] at hres
              have hji : j ≠ i := by
                intro hcontra
                rw [hcontra, h] at hget
                obtain rfl := Option.some.inj hget
                exact hcond ⟨fun hc => hnb (by rw [hc]; rfl), hnb⟩
              refine ih sources fg pg _ _ r i fd hres ?_ hnb
              rw [updAt_get_ne _ form j i hji]
              exact h
            · rw [if_neg htv] at hres
              exact ih sources fg pg form ap r i fd hres h hnb

/-- `gmApplyIds` never touches a non-blank field. -/
theorem gmApplyIds_pres : ∀ (ids : List String) (v : JVal)
    (form : List FormField) (ap : Bool) (i : Nat) (fd : FormField),
    form.get? i = some fd → jsTrim fd.value ≠ "" →
    (gmApplyIds v form ap ids).1.get? i = some fd := by
  intro ids
  induction ids with
  | nil => intro v form ap i fd h _; exact h
  | cons fid rest ih =>
    intro v form ap i fd h hnb
    cases hidx : idxById form fid with
    | none =>
      simp only [gmApplyIds, hidx]
      exact ih v form ap i fd h hnb
    | some j =>
      cases hget : form.get? j with
      | none =>
        simp only [gmApplyIds, hidx, hget]
        exact ih v form ap i fd h hnb
      | some fd' =>
        simp only [gmApplyIds, hidx, hget]
        split
        · rename_i hcond
          have hji : j ≠ i := by
            intro hcontra
            rw [hcontra, h] at hget
            obtain rfl := Option.some.inj hget
            rcases hcond with h1 | h1
            · exact hnb (by rw [h1]; rfl)
            · exact hnb h1
          refine ih v _ true i fd ?_ hnb
          rw [updAt_get_ne _ form j i hji]
          exact h
        · exact ih v form ap i fd h hnb

/-- The fold of `applyGeneralMapping` never touches a non-blank field. -/
theorem gmFold_pres : ∀ (tgts : List (List String × Option JVal))
    (st : List FormField × Bool) (i : Nat) (fd : FormField),
    st.1.get? i = some fd → jsTrim fd.value ≠ "" →
    (tgts.foldl
      (fun st tgt =>
        match tgt.2 with
        | none => st
        | some v =>
          if truthy v then gmApplyIds v st.1 st.2 tgt.1 else st)
      st).1.get? i = some fd := by
  intro tgts
  induction tgts with
  | nil => intro st i fd h _; exact h
  | cons tgt rest ih =>
    intro st i fd h hnb
    rw [List.foldl_cons]
    refine ih _ i fd ?_ hnb
    show (match tgt.2 with
      | none => st
      | some v =>
        if truthy v then gmApplyIds v st.1 st.2 tgt.1 else st).1.get? i =
      some fd
    cases htg : tgt.2 with
    | none =>
      simp only [htg]
      exact h
    | some v =>
      simp only [htg]
      split
      · exact gmApplyIds_pres tgt.1 v st.1 st.2 i fd h hnb
      · exact h

/-- `applyGeneralMapping` never touches a non-blank field. -/
theorem agm_pres (g : JVal) (form : List FormField) (i : Nat)
    (fd : FormField) (h : form.get? i = some fd)
    (hnb : jsTrim fd.value ≠ "") :
    (applyGeneralMapping g form).1.get? i = some fd := by
  rw [applyGeneralMapping]
  split
  · exact h
  · exact gmFold_pres (gmTargets g) (form, false) i fd h hnb

/-- The heuristic pass never touches a non-blank field. -/
theorem heurGo_pres (data : JVal) : ∀ (form : List FormField)
    (l : List (FormField × Bool)), heurGo data form = some l →
    ∀ (i : Nat) (fd : FormField), form.get? i = some fd →
    jsTrim fd.value ≠ "" → (l.map Prod.fst).get? i = some fd := by
  intro form
  induction form with
  | nil =>
    intro l hres i fd h _
    simp at h
  | cons el rest ih =>
    intro l hres i fd h hnb
    rw [heurGo] at hres
    cases hf : heurField data el with
    | none =>
      rw [hf] at hres
      exact Option.noConfusion hres
    | some p =>
      rw [hf] at hres
      cases hg : heurGo data rest with
      | none =>
        rw [hg] at hres
        exact Option.noConfusion hres
      | some rs =>
        rw [hg] at hres
        obtain rfl := Option.some.inj hres
        cases i with
        | zero =>
          obtain rfl := Option.some.inj h
          have hvne : el.value ≠ "" := fun hc => hnb (by rw [hc]; rfl)
          rw [heurField, if_pos ⟨hvne, hnb⟩] at hf
          obtain rfl := Option.some.inj hf
          rfl
        | succ i => exact ih rs hg i fd h hnb

/-- `applyHeuristicMapping` never touches a non-blank field. -/
theorem heur_pres (data : JVal) (form : List FormField)
    (r : List FormField × Bool)
    (hres : applyHeuristicMapping data form = some r) (i : Nat)
    (fd : FormField) (h : form.get? i = some fd)
    (hnb : jsTrim fd.value ≠ "") : r.1.get? i = some fd := by
  rw [applyHeuristicMapping] at hres
  cases hg : heurGo data form with
  | none =>
    rw [hg] at hres
    exact Option.noConfusion hres
  | some l =>
    rw [hg] at hres
    obtain rfl := Option.some.inj hres
    exact heurGo_pres data form l hg i fd h hnb


/-- **C5** counterexample.  The first prefill stage,
`applyRawFormValues`, assigns `el.value = v` *unconditionally*: a saved
phase value overwrites a field the user already filled in ("user typed"
becomes "saved"), so prefill does not mutate only empty fields. -/
theorem C5_counterexample :
    prefillFromProject (fun _ => none)
      (some ⟨some (.obj [("phaseData", .obj [("custom",
        .obj [("f1", .str "saved")])])])⟩)
      none "custom" []
      [⟨"f1", "f1", "input", "text", "Field one", "user typed", []⟩] =
      some [⟨"f1", "f1", "input", "text", "Field one", "saved", []⟩] := by
  decide

/-- The tail of `prefillFromProject` (semantic-map pass onwards) never
touches a non-blank field. -/
theorem prefillTail_pres (sources : List JVal) (fg pg data : JVal)
    (map : List (String × FieldMeta)) (st4 : List FormField × Bool)
    (out : List FormField) (i : Nat) (fd : FormField)
    (hst4 : st4.1.get? i = some fd) (hnb : jsTrim fd.value ≠ "")
    (hres : (match
        (if map ≠ [] then mapPass sources fg pg st4.1 st4.2 map
         else some st4) with
      | none => none
      | some st5 =>
        if st5.2 then some st5.1
        else
          let r6 := applyGeneralMapping pg st5.1
          if r6.2 then some r6.1
          else
            let r7 := applyGeneralMapping fg r6.1
            if r7.2 then some r7.1
            else
              match applyHeuristicMapping data r7.1 with
              | none => none
              | some r8 => some r8.1) = some out) :
    out.get? i = some fd := by
  cases hmp : (if map ≠ [] then mapPass sources fg pg st4.1 st4.2 map
      else some st4) with
  | none =>
    simp only [hmp] at hres
    exact Option.noConfusion hres
  | some st5 =>
    simp only [hmp] at hres
    have hst5 : st5.1.get? i = some fd := by
      by_cases hmne : map ≠ []
      · rw [if_pos hmne] at hmp
        exact mapPass_pres map sources fg pg st4.1 st4.2 st5 i fd hmp hst4 hnb
      · rw [if_neg hmne] at hmp
        obtain rfl := Option.some.inj hmp
        exact hst4
    by_cases h5 : st5.2 = true
    · simp only [h5, if_true] at hres
      obtain rfl := Option.some.inj hres
      exact hst5
    · have h5' : st5.2 = false := Bool.eq_false_iff.mpr h5
      simp only [h5', Bool.false_eq_true, if_false] at hres
      by_cases h6 : (applyGeneralMapping pg st5.1).2 = true
      · simp only [h6, if_true] at hres
        obtain rfl := Option.some.inj hres
        exact agm_pres _ _ i fd hst5 hnb
      · have h6' : (applyGeneralMapping pg st5.1).2 = false :=
          Bool.eq_false_iff.mpr h6
        simp only [h6', Bool.false_eq_true, if_false] at hres
        by_cases h7 : (applyGeneralMapping fg
            (applyGeneralMapping pg st5.1).1).2 = true
        · simp only [h7, if_true] at hres
          obtain rfl := Option.some.inj hres
          exact agm_pres _ _ i fd (agm_pres _ _ i fd hst5 hnb) hnb
        · have h7' : (applyGeneralMapping fg
              (applyGeneralMapping pg st5.1).1).2 = false :=
            Bool.eq_false_iff.mpr h7
          simp only [h7', Bool.false_eq_true, if_false] at hres
          cases hh : applyHeuristicMapping data
              (applyGeneralMapping fg (applyGeneralMapping pg st5.1).1).1 with
          | none =>
            simp only [hh] at hres
            exact Option.noConfusion hres
          | some r8 =>
            simp only [hh] at hres
            obtain rfl := Option.some.inj hres
            exact heur_pres _ _ r8 hh i fd
              (agm_pres _ _ i fd (agm_pres _ _ i fd hst5 hnb) hnb) hnb

/-- **C5** (amended).  Every prefill stage *after* the raw phase-value
replay (the safety-net `setIfEmpty` chains, the semantic-map pass, both
`applyGeneralMapping` runs and the heuristic pass) touches only blank
fields; the raw replay targets fields by saved key.  Hence a field
whose value has a non-empty trim *and* whose id is not among the saved
phase-value keys survives `prefillFromProject` unchanged — the spec's
claim holds only under that extra phase-value condition. -/
theorem C5_prefill_preserves (parse : String → Option JVal)
    (proj feat : Option StoredRec) (phaseKey : String)
    (map : List (String × FieldMeta)) (form out : List FormField)
    (i : Nat) (fd : FormField)
    (hfd : form.get? i = some fd)
    (hnb : jsTrim fd.value ≠ "")
    (hid : ∀ kv ∈ jsEntries (prefillPhaseValues parse proj feat phaseKey),
      kv.1 ≠ fd.id)
    (hres : prefillFromProject parse proj feat phaseKey map form = some out) :
    out.get? i = some fd := by
  rw [prefillFromProject.eq_def] at hres
  split at hres
  · obtain rfl := Option.some.inj hres
    exact hfd
  · exact prefillTail_pres _ _ _ _ map _ out i fd
      (setIfEmptyAll_pres _ _ _ i fd
        (setIfEmptyAll_pres _ _ _ i fd
          (setIfEmptyAll_pres _ _ _ i fd
            (applyRaw_ite_pres _ _ form i fd hfd hid) hnb) hnb) hnb)
      hnb hres

/-- Witness for `C5_prefill_preserves`: the same stored record as the
counterexample, but a non-blank field whose id is not a saved key. -/
theorem C5_witness :
    [(⟨"other", "other", "input", "text", "Other", "kept",
      []⟩ : FormField)].get? 0 =
      some ⟨"other", "other", "input", "text", "Other", "kept", []⟩ :=
  C5_prefill_preserves (fun _ => none)
    (some ⟨some (.obj [("phaseData", .obj [("custom",
      .obj [("f1", .str "saved")])])])⟩)
    none "custom" []
    [⟨"other", "other", "input", "text", "Other", "kept", []⟩]
    [⟨"other", "other", "input", "text", "Other", "kept", []⟩]
    0 ⟨"other", "other", "input", "text", "Other", "kept", []⟩
    (by decide) (by decide) (by decide) (by decide)

end SV
